import Mathlib

/-!
Verification of the LRRIT evidence-resolution / table-reconstruction core.

The Python sources embedded here:
  * `src/lrrit_llm/evidence/resolve.py` — text normalizer (`_norm_for_match`)
    and the evidence resolver (`resolve_evidence_id_and_page`);
  * `src/lrrit_llm/ingest/pdf_tables.py` — table-grid cleaner
    (`_fix_table_grid` and helpers) and the cross-page stitching loop of
    `extract_tables_from_pdf`.

Strings are embedded as `List Char`.  Python float threshold comparisons
(`x / n >= 0.85` etc.) are embedded as exact rational comparisons over the
integers involved (`100 * x >= 85 * n`): for the small cell counts a table row
can have, the double-precision quotient and the rational quotient order the
same way against these constants, so the embedding is exact.

Unicode-dependent primitives are embedded character-wise:
  * `nfkcChar` models `unicodedata.normalize("NFKC", ·)` restricted to the
    singleton compatibility mappings exercised in this development (NBSP and
    the ASCII-ligature characters); canonical recomposition of multi-character
    combining sequences is not modelled (no input considered contains one).
  * word characters (`\w`), digits (`\d`) and case mapping are modelled on
    ASCII; whitespace (`\s`, `str.strip`) is modelled as the ASCII whitespace
    characters plus NBSP (the exotic Unicode spaces are themselves removed by
    the NFKC step in the source pipeline).
-/

abbrev Str := List Char

/-- Python `\s` / `str.isspace` membership, on the characters modelled here:
the six ASCII whitespace characters plus the no-break space. -/
def isPySpace (c : Char) : Bool :=
  c = ' ' || c = '\t' || c = '\n' || c = '\r' ||
  c = '\x0b' || c = '\x0c' || c = '\u00A0'

/-- Python regex `\w` (word character), ASCII model: alphanumeric or underscore. -/
def isWordCh (c : Char) : Bool := c.isAlphanum || c = '_'

/-- The hyphen alternatives of `_HYPHEN_LINEBREAK_RE`: ASCII hyphen-minus,
U+2010 HYPHEN, U+2011 NON-BREAKING HYPHEN. -/
def isHyphenCh (c : Char) : Bool := c = '-' || c = '‐' || c = '‑'

/-- Character-wise model of `unicodedata.normalize("NFKC", ·)`: the singleton
compatibility mappings exercised in this development (NBSP to space, the
fi/fl ligatures to their ASCII letter sequences); every other character is a
fixed point.  Canonical recomposition of combining sequences is not modelled. -/
def nfkcChar (c : Char) : Str :=
  if c = '\u00A0' then [' ']
  else if c = 'ﬁ' then ['f', 'i']
  else if c = 'ﬂ' then ['f', 'l']
  else [c]

/-- The `str.maketrans` table `_TRANSLATION` of `resolve.py`: curly double
quotes to `"`, curly single quotes to `'`, NBSP to a plain space. -/
def translateChar (c : Char) : Char :=
  if c = '“' || c = '”' || c = '„' || c = '‟' then '"'
  else if c = '’' || c = '‘' || c = '‚' || c = '‛' then '\''
  else if c = '\u00A0' then ' '
  else c

/-- `s.replace("\r\n", "\n")`: left-to-right, non-overlapping. -/
def replaceCrLf : Str → Str
  | [] => []
  | '\r' :: '\n' :: rest => '\n' :: replaceCrLf rest
  | c :: rest => c :: replaceCrLf rest

/-- One attempted match of the tail of `_HYPHEN_LINEBREAK_RE` (everything
after the first `(\w)`): a hyphen, then a whitespace run containing at least
one newline (`\s*\n\s*`), then a word character.  Returns that word character
and the remainder of the string after it. -/
def hyphenTail : Str → Option (Char × Str)
  | [] => none
  | h :: t =>
    match t.dropWhile isPySpace with
    | [] => none
    | c2 :: r2 =>
      if isHyphenCh h && (t.takeWhile isPySpace).contains '\n' && isWordCh c2 then
        some (c2, r2)
      else none

/-- Fuel-indexed worker for `hyphenJoin` (the fuel makes the recursion
structural; `hyphenJoin` always supplies enough fuel). -/
def hyphenJoinF (n : Nat) (l : Str) : Str :=
  match l, n with
  | [], _ => []
  | l, 0 => l
  | c :: rest, n + 1 =>
    if isWordCh c then
      match hyphenTail rest with
      | some p => c :: p.1 :: hyphenJoinF n p.2
      | none => c :: hyphenJoinF n rest
    else c :: hyphenJoinF n rest

/-- `_HYPHEN_LINEBREAK_RE.sub(r"\1\2", s)`: scan left to right; at a word
character followed by a hyphen, a newline-containing whitespace run and a word
character, drop the hyphen and the whitespace and continue after the second
word character. -/
def hyphenJoin (l : Str) : Str := hyphenJoinF l.length l

/-- Worker for `collapseWs`; the flag records whether the previous character
was whitespace (i.e. whether we are inside a run whose space has already been
emitted). -/
def collapseWsAux : Bool → Str → Str
  | _, [] => []
  | inRun, c :: rest =>
    if isPySpace c then
      if inRun then collapseWsAux true rest
      else ' ' :: collapseWsAux true rest
    else c :: collapseWsAux false rest

/-- `_WS_RE.sub(" ", s)`: replace every maximal whitespace run with a single
space. -/
def collapseWs (l : Str) : Str := collapseWsAux false l

/-- Python `str.strip()`: remove whitespace from both ends. -/
def pyStrip (l : Str) : Str := (l.dropWhile isPySpace).rdropWhile isPySpace

/-- `_norm_for_match` of `resolve.py`: NFKC, quote translation, CRLF
normalisation, hyphenated-line-break joining, whitespace collapse, strip,
lowercase.  The `if not s` guard returns the empty string unchanged. -/
def normForMatch (s : Str) : Str :=
  if s = [] then []
  else
    (pyStrip (collapseWs (hyphenJoin (replaceCrLf
      ((s.flatMap nfkcChar).map translateChar))))).map Char.toLower

/-- `_norm_for_match` as called on a possibly-`None` argument: the `if not s`
guard maps `None` to the empty string. -/
def normOptForMatch : Option Str → Str
  | none => []
  | some s => normForMatch s

/-! ### Idempotence of the normalizer (claim C3)

`canonChB` holds of a character that every stage of `_norm_for_match` leaves
unchanged; the lemmas below show every character of the normalizer's output
satisfies it. -/

/-- A character fixed by the NFKC model, the quote translation and
lowercasing, and which is either non-whitespace or a plain space. -/
def canonChB (c : Char) : Bool :=
  (nfkcChar c == [c]) && (translateChar c == c) && (Char.toLower c == c) &&
  (!isPySpace c || c == ' ')

/-- The pairwise relation "not two adjacent plain spaces". -/
def noTwoSpaces (a b : Char) : Prop := ¬(a = ' ' ∧ b = ' ')

/-- Modelled from the spec: claim C4's step 1, Unicode canonical composition
(NFC).  Canonical composition leaves all the singleton characters considered
here unchanged (in particular the compatibility-only characters such as the
fi ligature and NBSP are NFC-fixed points), so the character-wise model is the
identity. -/
def nfcCanonical (s : Str) : Str := s

/-- Claim C4's step 2, written from the claim's own wording: replace each of
the eight typographic quote variants by its ASCII equivalent and the
non-breaking space by a regular space. -/
def specQuoteFold (c : Char) : Char :=
  if c = '“' then '"'
  else if c = '”' then '"'
  else if c = '„' then '"'
  else if c = '‟' then '"'
  else if c = '’' then '\''
  else if c = '‘' then '\''
  else if c = '‚' then '\''
  else if c = '‛' then '\''
  else if c = '\u00A0' then ' '
  else c

/-- The five-step pipeline exactly as claim C4 states it, with canonical (NFC)
composition as step 1. -/
def normSpecNFC (s : Str) : Str :=
  (pyStrip (collapseWs (hyphenJoin (replaceCrLf
    ((nfcCanonical s).map specQuoteFold))))).map Char.toLower

/-- The same five-step pipeline with step 1 replaced by compatibility
composition (NFKC): the amended form of claim C4. -/
def normSpecNFKC (s : Str) : Str :=
  (pyStrip (collapseWs (hyphenJoin (replaceCrLf
    ((s.flatMap nfkcChar).map specQuoteFold))))).map Char.toLower

/-! ### Evidence resolution (`resolve_evidence_id_and_page`, resolve.py)

The resolver consumes an `EvidencePack` built by the ingestion collaborator
(`lrrit_llm.evidence.schema`, outside the shipped sources); the record types
below carry exactly the fields the resolver reads: stable ids, raw text /
text fallback, and `provenance.page` (`int(...)` on an integer page is the
identity and is not modelled separately). -/

/-- Provenance carried by each evidence block; `page` is 1-based. -/
structure Provenance where
  page : Int
deriving DecidableEq

/-- A text chunk as read by the resolver. -/
structure TextChunk where
  chunk_id : Str
  text : Str
  provenance : Provenance
deriving DecidableEq

/-- A table as read by the resolver; `text_fallback` may be `None`
(the code reads `t.text_fallback or ""`). -/
structure TableEvidence where
  table_id : Str
  text_fallback : Option Str
  provenance : Provenance
deriving DecidableEq

/-- The evidence pack: ordered chunks and tables. -/
structure EvidencePack where
  text_chunks : List TextChunk
  tables : List TableEvidence

/-- `leadMatch pat l`: `l` starts with `pat` (literal match). -/
def leadMatch : Str → Str → Bool
  | [], _ => true
  | _ :: _, [] => false
  | a :: pat, b :: l => a = b && leadMatch pat l

/-- Python substring containment `needle in hay`. -/
def strContains (hay needle : Str) : Bool :=
  if leadMatch needle hay then true
  else
    match hay with
    | [] => false
    | _ :: t => strContains t needle

/-- Attempt to match the tail of the id pattern, `\s+([pP]\d+_[ct]\d+)\b`,
at the start of `l`; returns group 2 (in its original case).  Digits are the
ASCII digits (`\d`, ASCII model). -/
def matchIdKey (l : Str) : Option Str :=
  if l.takeWhile isPySpace = [] then none
  else
    match l.dropWhile isPySpace with
    | [] => none
    | p :: r2 =>
      if p = 'p' ∨ p = 'P' then
        let d1 := r2.takeWhile Char.isDigit
        match r2.dropWhile Char.isDigit with
        | '_' :: k :: r5 =>
          if (k = 'c' ∨ k = 't') ∧ d1 ≠ [] then
            let d2 := r5.takeWhile Char.isDigit
            if d2 = [] then none
            else
              match r5.dropWhile Char.isDigit with
              | [] => some (p :: (d1 ++ '_' :: k :: d2))
              | c :: _ =>
                if isWordCh c then none
                else some (p :: (d1 ++ '_' :: k :: d2))
          else none
        | _ => none
      else none

/-- The lowercased group 1 of the id pattern (`m.group(1).lower()`):
`"text"` or `"table"`. -/
inductive IdKind
  | text
  | table
deriving DecidableEq

/-- `re.search(r"\b(Text|Table)\s+([pP]\d+_[ct]\d+)\b", ·)`: find the
leftmost position, preceded by a word boundary, where the literal `Text` or
`Table` followed by the rest of the pattern matches; return the lowercased
kind and the captured key.  `prevIsWord` records whether the character before
the current position is a word character (`false` at the start of input). -/
def searchIdRef (prevIsWord : Bool) (l : Str) : Option (IdKind × Str) :=
  match l with
  | [] => none
  | c :: rest =>
    if ¬prevIsWord ∧ leadMatch "Text".toList l then
      match matchIdKey (l.drop 4) with
      | some key => some (.text, key)
      | none => searchIdRef (isWordCh c) rest
    else if ¬prevIsWord ∧ leadMatch "Table".toList l then
      match matchIdKey (l.drop 5) with
      | some key => some (.table, key)
      | none => searchIdRef (isWordCh c) rest
    else searchIdRef (isWordCh c) rest

/-- The fast path's per-chunk test (the body of the resolver's first loop):
the id names this chunk and, if a quote was supplied, its normalisation is a
substring of the chunk's normalised text. -/
def fastChunkHit (q key : Str) (c : TextChunk) : Bool :=
  c.chunk_id == key &&
    (q == ([] : Str) || strContains (normForMatch c.text) (normForMatch q))

/-- The fast path's per-table test, on `text_fallback or ""`. -/
def fastTableHit (q key : Str) (t : TableEvidence) : Bool :=
  t.table_id == key &&
    (q == ([] : Str) ||
      strContains (normForMatch (t.text_fallback.getD [])) (normForMatch q))

/-- Part 1 of `resolve_evidence_id_and_page` (the fast path): parse the id,
and return the named block's canonical id and page when the quote check
passes.  `none` means "fall through to the repair path". -/
def fastPath (pack : EvidencePack) (eid q : Str) : Option (Str × Int) :=
  if eid = [] then none
  else
    match searchIdRef false eid with
    | none => none
    | some (kind, key) =>
      match kind with
      | .text =>
        match pack.text_chunks.find? (fastChunkHit q key) with
        | some c => some ("Text ".toList ++ c.chunk_id, c.provenance.page)
        | none => none
      | .table =>
        match pack.tables.find? (fastTableHit q key) with
        | some t => some ("Table ".toList ++ t.table_id, t.provenance.page)
        | none => none

/-- Part 2 of `resolve_evidence_id_and_page` (the repair path): normalise the
quote; fail on empty; otherwise first matching text chunk in document order,
then first matching table fallback. -/
def repairPath (pack : EvidencePack) (q : Str) : Option Str × Option Int :=
  let nq := normForMatch q
  if nq = [] then (none, none)
  else
    match pack.text_chunks.find? (fun c => strContains (normForMatch c.text) nq) with
    | some c => (some ("Text ".toList ++ c.chunk_id), some c.provenance.page)
    | none =>
      match pack.tables.find?
          (fun t => strContains (normForMatch (t.text_fallback.getD [])) nq) with
      | some t => (some ("Table ".toList ++ t.table_id), some t.provenance.page)
      | none => (none, none)

/-- `resolve_evidence_id_and_page`: strip both inputs, try the fast path,
fall through to the repair path. -/
def resolveEvidenceIdAndPage (pack : EvidencePack) (evidence_id quote : Str) :
    Option Str × Option Int :=
  let eid := pyStrip evidence_id
  let q := pyStrip quote
  match fastPath pack eid q with
  | some r => (some r.1, some r.2)
  | none => repairPath pack q

/-- A concrete pack used by the witnesses: two text chunks and one table. -/
def samplePack : EvidencePack where
  text_chunks :=
    [ { chunk_id := "p01_c01".toList
        text := "The pump failed on the night shift.".toList
        provenance := { page := 1 } },
      { chunk_id := "p03_c01".toList
        text := "During the incident the team escalated promptly and informed the board.".toList
        provenance := { page := 3 } } ]
  tables :=
    [ { table_id := "p13_t01".toList
        text_fallback := some "Action Owner Date Replace valve J Smith 2023-01-02".toList
        provenance := { page := 13 } } ]

/-! ### Table grid cleaning (`pdf_tables.py`)

Raw grids come from `table.extract()`: a list of rows, each possibly `None`,
each a list of possibly-`None` cell strings. -/

/-- `_norm_cell`: `(c or "").replace("\n", " ").strip()`. -/
def normCell (c : Option Str) : Str :=
  pyStrip ((c.getD []).map (fun ch => if ch = '\n' then ' ' else ch))

/-- `_norm_cell` applied to an already-string cell (the second application
inside `_merge_rows_columnwise`). -/
def normCellStr (c : Str) : Str :=
  pyStrip (c.map (fun ch => if ch = '\n' then ' ' else ch))

/-- The maximum row width (`max((len(r) for r in rows), default=0)`). -/
def maxRowLen (rows : List (List Str)) : Nat :=
  rows.foldr (fun r acc => max r.length acc) 0

/-- `(r + [""] * (n_cols - len(r)))[:n_cols]`. -/
def padTo (n : Nat) (r : List Str) : List Str :=
  (r ++ List.replicate (n - r.length) []).take n

/-- `_rectangularise`. -/
def rectangularise (rows : List (List Str)) : List (List Str) :=
  rows.map (padTo (maxRowLen rows))

/-- `_drop_near_empty_rows` with threshold `pct`/100 (0.85 and 0.90 in the
source): skip empty rows and rows whose empty-cell ratio reaches the
threshold.  The float comparison `empties / len(r) >= pct/100` is embedded
exactly as `100 * empties >= pct * len(r)`. -/
def dropNearEmptyRows (pct : Nat) (rows : List (List Str)) : List (List Str) :=
  rows.filter fun r =>
    !r.isEmpty &&
      !(decide (pct * r.length ≤ 100 * r.countP (fun c => c.isEmpty)))

/-- `_looks_like_header_fragment_row`: >25% blank cells, average non-empty
cell length <28, and no digit anywhere (ratios embedded exactly:
`4 * blanks > len(row)` and `sum < 28 * count`). -/
def looksLikeHeaderFragmentRow (row : List Str) : Bool :=
  let nonempty := row.filter (fun c => !c.isEmpty)
  if nonempty.isEmpty then false
  else
    decide (row.length < 4 * row.countP (fun c => c.isEmpty)) &&
    decide ((nonempty.map List.length).sum < 28 * nonempty.length) &&
    !(nonempty.any (fun c => c.any Char.isDigit))

/-- The header-fragment loop of `_fix_table_grid` (`for i, r in
enumerate(rows[:10]): if fragment: append / else: break`), as the loop is
written: collect rows while they classify as fragments, stop at the first
that does not. -/
def headerScan : List (List Str) → List (List Str)
  | [] => []
  | r :: rest =>
    if looksLikeHeaderFragmentRow r then r :: headerScan rest else []

/-- ASCII-letter run helper for the word-split repair
(`\b([A-Za-z]{3,})\s+([a-z]{1,2})\b`): an attempted match at the current
position (which must be at a word boundary).  Greedy runs with the regex's
backtracking resolved: the letter run is maximal and must have length ≥ 3,
the whitespace run is maximal and nonempty, the lowercase run is maximal,
must have length 1 or 2, and must be followed by a non-word character or the
end. -/
def wordSplitTail (l : Str) : Option (Str × Str) :=
  let letters := l.takeWhile Char.isAlpha
  if letters.length < 3 then none
  else
    let r1 := l.dropWhile Char.isAlpha
    if (r1.takeWhile isPySpace).isEmpty then none
    else
      let r2 := r1.dropWhile isPySpace
      let lows := r2.takeWhile Char.isLower
      if lows.length = 0 || 2 < lows.length then none
      else
        match r2.dropWhile Char.isLower with
        | [] => some (letters ++ lows, [])
        | c :: r3 =>
          if isWordCh c then none else some (letters ++ lows, c :: r3)

/-- Fuel-indexed scan applying the word-split repair left to right,
tracking whether the previous character is a word character (for `\b`). -/
def fixWordSplitF : Nat → Bool → Str → Str
  | _, _, [] => []
  | 0, _, l => l
  | n + 1, prevW, c :: rest =>
    if !prevW then
      match wordSplitTail (c :: rest) with
      | some p => p.1 ++ fixWordSplitF n true p.2
      | none => c :: fixWordSplitF n (isWordCh c) rest
    else c :: fixWordSplitF n (isWordCh c) rest

/-- `re.sub(r"\b([A-Za-z]{3,})\s+([a-z]{1,2})\b", r"\1\2", m)`:
the wrapped-word repair `"Implemente d" -> "Implemented"`. -/
def fixWordSplit (l : Str) : Str := fixWordSplitF l.length false l

/-- Attempted match of `-\s+(\w)` after a word character: a hyphen, a
nonempty whitespace run, a word character. -/
def hyphenSpaceTail : Str → Option (Char × Str)
  | '-' :: t =>
    if (t.takeWhile isPySpace).isEmpty then none
    else
      match t.dropWhile isPySpace with
      | c2 :: r3 => if isWordCh c2 then some (c2, r3) else none
      | [] => none
  | _ => none

/-- Fuel-indexed scan for the hyphenation repair. -/
def fixHyphenSpaceF : Nat → Str → Str
  | _, [] => []
  | 0, l => l
  | n + 1, c :: rest =>
    if isWordCh c then
      match hyphenSpaceTail rest with
      | some p => c :: p.1 :: fixHyphenSpaceF n p.2
      | none => c :: fixHyphenSpaceF n rest
    else c :: fixHyphenSpaceF n rest

/-- `re.sub(r"(\w)-\s+(\w)", r"\1\2", m)`: the hyphenation repair
`"moni- toring" -> "monitoring"`. -/
def fixHyphenSpace (l : Str) : Str := fixHyphenSpaceF l.length l

/-- One cell merge inside `_merge_rows_columnwise`:
`merged[i] = (merged[i] + " " + c).strip() if merged[i] else c`,
guarded by `if c:` (via the already-normalised `c`). -/
def mergeCellCol (acc c0 : Str) : Str :=
  let c := normCellStr c0
  if c.isEmpty then acc
  else if acc.isEmpty then c
  else pyStrip (acc ++ ' ' :: c)

/-- `_merge_rows_columnwise`: concatenate non-empty cell fragments per
column, collapse whitespace, then repair word splits and hyphenation. -/
def mergeRowsColumnwise (rows : List (List Str)) : List Str :=
  if rows.isEmpty then []
  else
    let nCols := maxRowLen rows
    let merged := rows.foldl
      (fun merged r => List.zipWith mergeCellCol merged (padTo nCols r))
      (List.replicate nCols [])
    ((merged.map (fun m => pyStrip (collapseWs m))).map fixWordSplit).map
      fixHyphenSpace

/-- One continuation merge of `_merge_continuation_rows`: for each filled cell
of `r`, append it (space-joined, stripped) into the same column of `prev`. -/
def mergeContRow (prev r : List Str) : List Str :=
  List.zipWith
    (fun pc rc =>
      if rc.isEmpty then pc
      else if pc.isEmpty then rc
      else pyStrip (pc ++ ' ' :: rc))
    prev r

/-- Worker for `_merge_continuation_rows`; `acc` is the output list `out`
reversed (its head is `out[-1]`). -/
def mergeContAux (contFillMax : Nat) : List (List Str) → List (List Str) →
    List (List Str)
  | acc, [] => acc.reverse
  | acc, r :: rest =>
    match acc with
    | prev :: accTail =>
      if r.countP (fun c => !c.isEmpty) ≤ contFillMax then
        mergeContAux contFillMax (mergeContRow prev r :: accTail) rest
      else mergeContAux contFillMax (r :: prev :: accTail) rest
    | [] => mergeContAux contFillMax [r] rest

/-- `_merge_continuation_rows`: a body row with at most `contFillMax` filled
cells is merged into the immediately preceding output row. -/
def mergeContinuationRows (contFillMax : Nat) (body : List (List Str)) :
    List (List Str) :=
  mergeContAux contFillMax [] body

/-- `_fix_table_grid`: normalise cells, rectangularise, drop ≥85%-empty rows,
split off the header-fragment block (first 10 rows), merge it columnwise
(falling back to first-row-as-header), rectangularise the body to the header
width, stitch continuation rows, and drop ≥90%-empty rows. -/
def fixTableGrid (grid : List (Option (List (Option Str)))) :
    List Str × List (List Str) :=
  let rows0 := (grid.filterMap id).map (List.map normCell)
  let rows1 := dropNearEmptyRows 85 (rectangularise rows0)
  match rows1 with
  | [] => ([], [])
  | r0 :: rtail =>
    let hr := headerScan ((r0 :: rtail).take 10)
    let header := if hr.isEmpty then r0 else mergeRowsColumnwise hr
    let body := if hr.isEmpty then rtail else (r0 :: rtail).drop hr.length
    let nCols := if header.isEmpty then maxRowLen body else header.length
    let body2 := dropNearEmptyRows 90
      (mergeContinuationRows 2 (body.map (padTo nCols)))
    (header, body2)

/-- The five-row grid of claim C5's concrete example: three header-fragment
rows and two data rows. -/
def exampleGrid : List (Option (List (Option Str))) :=
  [ some [some "Action".toList, some "".toList, some "".toList],
    some [some "Owner".toList, some "Implemente".toList, some "".toList],
    some [some "".toList, some "d".toList, some "Date".toList],
    some [some "Replace valve".toList, some "J Smith".toList, some "Done".toList],
    some [some "Review seals".toList, some "A Jones".toList, some "Complete".toList] ]

/-! ### Cross-page stitching (`extract_tables_from_pdf`) -/

/-- The table signature.  `_table_signature` encodes it as the string
`f"cols:{n}|x0:{..}|x1:{..}"` (or `"cols:{n}|bbox:None"`); that encoding is
injective in the column count and the two rounded coordinates, so
signature-string equality is modelled as equality of this structure. -/
structure TableSig where
  nCols : Nat
  xspan : Option (Int × Int)
deriving DecidableEq

/-- Python `round` (banker's rounding, ties to even), on exact rationals,
computed on numerator and denominator with integer arithmetic:
`f = ⌊q⌋` and the comparison of the fractional part against 1/2 done as
`2*(num - f*den)` versus `den`.  (Python rounds the binary double; for the
coordinate magnitudes involved the exact-rational rounding coincides except
at representation-dependent ties.) -/
def roundHalfEven (q : ℚ) : ℤ :=
  let f := q.num.fdiv q.den
  let r2 := 2 * (q.num - f * q.den)
  if r2 < (q.den : ℤ) then f
  else if (q.den : ℤ) < r2 then f + 1
  else if f % 2 = 0 then f else f + 1

/-- `round(x, -1)`: round to the nearest multiple of ten. -/
def roundTen (q : ℚ) : ℤ := 10 * roundHalfEven (q / 10)

/-- `_table_signature(n_cols, bbox)`: column count plus the rounded
horizontal span; `bbox:None` when the bbox is missing or not 4 numbers. -/
def tableSignature (nCols : Nat) (bbox : Option (List ℚ)) : TableSig :=
  match bbox with
  | some [x0, _, x1, _] => ⟨nCols, some (roundTen x0, roundTen x1)⟩
  | _ => ⟨nCols, none⟩

/-- `len(c.split())`: the number of maximal non-whitespace runs. -/
def countWordsAux : Bool → Str → Nat
  | _, [] => 0
  | inWord, c :: rest =>
    if isPySpace c then countWordsAux false rest
    else (if inWord then 0 else 1) + countWordsAux true rest

def countWords (s : Str) : Nat := countWordsAux false s

/-- `_looks_like_paragraph_row`: some cell is sentence-like (≥12 words and
punctuation) or the average non-empty cell length exceeds 35. -/
def looksLikeParagraphRow (row : List Str) : Bool :=
  let cells := row.filter (fun c => !c.isEmpty)
  if cells.isEmpty then false
  else
    cells.any (fun c =>
      decide (12 ≤ countWords c) &&
      ['.', ',', ';', ':', '’', '\'', '(', ')'].any (fun p => c.contains p)) ||
    decide (35 * cells.length < (cells.map List.length).sum)

/-- Fuel-indexed splitter into maximal word-character runs
(`re.split(r"\W+", ·)` with empty pieces discarded). -/
def wordTokensF : Nat → Str → List Str
  | _, [] => []
  | 0, _ => []
  | n + 1, c :: rest =>
    if isWordCh c then
      (c :: rest).takeWhile isWordCh ::
        wordTokensF n ((c :: rest).dropWhile isWordCh)
    else wordTokensF n rest

def wordTokens (s : Str) : List Str := wordTokensF s.length s

/-- `_jaccard_similarity(a, b) >= 0.65`, on lowercased word-token sets; the
float threshold is embedded exactly as `100 * |inter| >= 65 * |union|`.
Both-empty gives similarity 1.0 (accept), one-empty gives 0.0 (reject). -/
def jaccardGE65 (a b : Str) : Bool :=
  let aset := (wordTokens (a.map Char.toLower)).dedup
  let bset := (wordTokens (b.map Char.toLower)).dedup
  if aset.isEmpty && bset.isEmpty then true
  else if aset.isEmpty || bset.isEmpty then false
  else
    decide (65 * ((aset ++ bset).dedup).length ≤
      100 * (aset.filter (fun t => bset.contains t)).length)

/-- `_headers_similar` at the default threshold 0.65: Jaccard similarity of
the space-joined non-empty cells. -/
def headersSimilar (h1 h2 : List Str) : Bool :=
  jaccardGE65 (pyStrip (List.intercalate [' '] (h1.filter (fun c => !c.isEmpty))))
    (pyStrip (List.intercalate [' '] (h2.filter (fun c => !c.isEmpty))))

/-- `_row_is_sparse`: at most `maxFilled` cells with non-whitespace content. -/
def rowIsSparse (row : List Str) (maxFilled : Nat) : Bool :=
  decide (row.countP (fun c => !(pyStrip c).isEmpty) ≤ maxFilled)

/-- `_UNFINISHED_RE.match(c)`: the cell, after dropping trailing whitespace,
ends in one of the listed connective words at a word boundary
(case-insensitively; the leading `.*` imposes no constraint on the
newline-free cell text this is applied to). -/
def endsUnfinished (c : Str) : Bool :=
  ["to", "and", "or", "for", "of", "with", "until", "via", "by"].any fun w =>
    let l := (c.map Char.toLower).reverse.dropWhile isPySpace
    leadMatch w.toList.reverse l &&
      (match l.drop w.length with
       | [] => true
       | d :: _ => !isWordCh d)

/-- `_find_best_merge_col`: the last unfinished-looking non-empty column,
else the last non-empty column, else 0. -/
def findBestMergeCol (prevRow : List Str) : Nat :=
  let unfinished := (prevRow.enum.filter
    (fun p => !p.2.isEmpty && endsUnfinished p.2)).map (fun p => p.1)
  match unfinished.getLast? with
  | some i => i
  | none =>
    let nonempty := (prevRow.enum.filter (fun p => !p.2.isEmpty)).map
      (fun p => p.1)
    match nonempty.getLast? with
    | some i => i
    | none => 0

/-- `_merge_row_into_prev`: append the continuation row's non-empty cells,
space-joined, into the chosen column of (a copy of) the previous row. -/
def mergeRowIntoPrev (prevRow contRow : List Str) : List Str :=
  let fragments := contRow.filter (fun c => !c.isEmpty)
  if fragments.isEmpty then prevRow
  else
    let mergeCol := findBestMergeCol prevRow
    let joined := List.intercalate [' '] fragments
    let old := prevRow.getD mergeCol []
    prevRow.set mergeCol
      (if old.isEmpty then joined else pyStrip (old ++ ' ' :: joined))

/-- One raw table as handed over by pdfplumber: the extracted grid and the
optional bounding box. -/
structure RawTable where
  grid : List (Option (List (Option Str)))
  bbox : Option (List ℚ)

/-- One table emitted by `extract_tables_from_pdf` (the fields the claims
are about). -/
structure EmittedTable where
  page : Nat
  header : List Str
  rows : List (List Str)
deriving DecidableEq

/-- The per-document mutable state of the stitching loop: the
`last_header_by_sig` and `last_row_by_sig` dictionaries, as association
lists. -/
structure StitchState where
  lastHeaderBySig : List (TableSig × List Str)
  lastRowBySig : List (TableSig × List Str)

/-- Dictionary read (`dict.get` / `sig in dict` + index). -/
def sigLookup (m : List (TableSig × List Str)) (k : TableSig) :
    Option (List Str) :=
  (m.find? (fun p => decide (p.1 = k))).map (fun p => p.2)

/-- Dictionary write (`dict[k] = v`). -/
def sigInsert : List (TableSig × List Str) → TableSig → List Str →
    List (TableSig × List Str)
  | [], k, v => [(k, v)]
  | (k0, v0) :: rest, k, v =>
    if k0 = k then (k, v) :: rest else (k0, v0) :: sigInsert rest k v

/-- The column count fed to `_table_signature`:
`len(header) if header else (len(rows[0]) if rows else 0)`. -/
def stitchCols (header0 : List Str) (rows0 : List (List Str)) : Nat :=
  if !header0.isEmpty then header0.length
  else
    match rows0 with
    | r :: _ => r.length
    | [] => 0

/-- Python truthiness of `prev_header`: present and non-empty. -/
def prevTruthyFn : Option (List Str) → Bool
  | some ph => !ph.isEmpty
  | none => false

/-- Case 1 of the continuation handling: a paragraph-like inferred header
with a remembered header becomes the first body row, the remembered header is
reused. -/
def applyCase1 (ph : Option (List Str)) (hd : List Str)
    (rs : List (List Str)) : List Str × List (List Str) :=
  if !hd.isEmpty && looksLikeParagraphRow hd && prevTruthyFn ph then
    (ph.getD [], hd :: rs)
  else (hd, rs)

/-- Case 2: a header similar to the remembered one is standardised to it, and
a first body row that also repeats it is dropped. -/
def applyCase2 (ph : Option (List Str)) (hd : List Str)
    (rs : List (List Str)) : List Str × List (List Str) :=
  if prevTruthyFn ph && !hd.isEmpty && headersSimilar hd (ph.getD []) then
    (ph.getD [],
     match rs with
     | r0 :: rtail => if headersSimilar r0 (ph.getD []) then rtail else rs
     | [] => rs)
  else (hd, rs)

/-- Cross-page row stitching: a sparse first row, with a remembered previous
row for this signature and a truthy remembered header, is merged into the
remembered row (returned first) and consumed. -/
def applyRowStitch (ph plr : Option (List Str)) (rs : List (List Str)) :
    Option (List Str) × List (List Str) :=
  match rs, plr with
  | first :: rtail, some lastRow =>
    if prevTruthyFn ph && rowIsSparse first 2 then
      (some (mergeRowIntoPrev lastRow first), rtail)
    else (none, rs)
  | _, _ => (none, rs)

/-- The per-table processing after `_fix_table_grid`: signature, the two
header-continuation cases, the header memo update, the sparse-row stitch, the
last-row memo update, and the empty-table guard. -/
def processTableCore (st : StitchState) (pageNo : Nat)
    (header0 : List Str) (rows0 : List (List Str)) (bbox : Option (List ℚ)) :
    StitchState × Option EmittedTable :=
  let sig := tableSignature (stitchCols header0 rows0) bbox
  let ph := sigLookup st.lastHeaderBySig sig
  let s1 := applyCase1 ph header0 rows0
  let s2 := applyCase2 ph s1.1 s1.2
  let lastH :=
    if !s2.1.isEmpty then sigInsert st.lastHeaderBySig sig s2.1
    else st.lastHeaderBySig
  let rstitch := applyRowStitch ph (sigLookup st.lastRowBySig sig) s2.2
  let lr1 :=
    match rstitch.1 with
    | some merged => sigInsert st.lastRowBySig sig merged
    | none => st.lastRowBySig
  let lr2 :=
    match rstitch.2.getLast? with
    | some lr => sigInsert lr1 sig lr
    | none => lr1
  if s2.1.isEmpty && rstitch.2.isEmpty then (⟨lastH, lr2⟩, none)
  else (⟨lastH, lr2⟩, some ⟨pageNo, s2.1, rstitch.2⟩)

/-- The body of the per-table loop of `extract_tables_from_pdf`, after
`table.extract()`: the `len(grid) < 2` guard, then `_fix_table_grid` and the
continuation handling. -/
def processTable (st : StitchState) (pageNo : Nat) (rt : RawTable) :
    StitchState × Option EmittedTable :=
  if rt.grid.length < 2 then (st, none)
  else
    processTableCore st pageNo (fixTableGrid rt.grid).1 (fixTableGrid rt.grid).2
      rt.bbox

/-- Process the tables found on one page, in order. -/
def processTables (st : StitchState) (pageNo : Nat) :
    List RawTable → StitchState × List EmittedTable
  | [] => (st, [])
  | rt :: rest =>
    let r1 := processTable st pageNo rt
    let r2 := processTables r1.1 pageNo rest
    (r2.1,
     match r1.2 with
     | some t => t :: r2.2
     | none => r2.2)

/-- Process the pages in order, threading the stitching state. -/
def extractTablesAux (st : StitchState) :
    List (Nat × List RawTable) → List EmittedTable
  | [] => []
  | (pg, rts) :: rest =>
    let r := processTables st pg rts
    r.2 ++ extractTablesAux r.1 rest

/-- `extract_tables_from_pdf`, restricted to the post-extraction processing:
pages in order, fresh per-document state. -/
def extractTablesFromPdf (pages : List (Nat × List RawTable)) :
    List EmittedTable :=
  extractTablesAux ⟨[], []⟩ pages

theorem hyphenTail_eq_some {l : Str} {p : Char × Str}
    (h : hyphenTail l = some p) :
    ∃ a t, l = a :: t ∧ t.dropWhile isPySpace = p.1 :: p.2 := by
  match l with
  | [] => simp [hyphenTail] at h
  | a :: t =>
    refine ⟨a, t, rfl, ?_⟩
    simp only [hyphenTail] at h
    split at h
    · simp at h
    · rename_i c2 r2 heq
      split at h
      · cases h; exact heq
      · simp at h

theorem hyphenTail_length_lt {l : Str} {p : Char × Str}
    (h : hyphenTail l = some p) : p.2.length < l.length := by
  obtain ⟨a, t, rfl, hd⟩ := hyphenTail_eq_some h
  have h1 : (t.dropWhile isPySpace).length ≤ t.length :=
    (List.dropWhile_sublist _).length_le
  rw [hd] at h1
  simp only [List.length_cons] at h1 ⊢
  omega

theorem hyphenTail_mem {l : Str} {p : Char × Str}
    (h : hyphenTail l = some p) : p.1 ∈ l ∧ ∀ c ∈ p.2, c ∈ l := by
  obtain ⟨a, t, rfl, hd⟩ := hyphenTail_eq_some h
  have hsub : p.1 :: p.2 ⊆ t := by
    rw [← hd]; exact List.dropWhile_subset _
  constructor
  · exact List.mem_cons_of_mem _ (hsub (List.mem_cons_self _ _))
  · intro c hc
    exact List.mem_cons_of_mem _ (hsub (List.mem_cons_of_mem _ hc))

theorem hyphenJoinF_congr :
    ∀ n m (l : Str), l.length ≤ n → l.length ≤ m →
      hyphenJoinF n l = hyphenJoinF m l := by
  intro n
  induction n with
  | zero =>
    intro m l hn _
    have : l = [] := List.eq_nil_of_length_eq_zero (Nat.le_zero.mp hn)
    subst this
    simp [hyphenJoinF]
  | succ n ih =>
    intro m l hn hm
    match l, m with
    | [], _ => simp [hyphenJoinF]
    | c :: rest, m + 1 =>
      simp only [List.length_cons, Nat.succ_le_succ_iff] at hn hm
      simp only [hyphenJoinF]
      cases hp : hyphenTail rest with
      | some p =>
        have hlt := hyphenTail_length_lt hp
        dsimp only
        rw [ih m p.2 (by omega) (by omega), ih m rest hn hm]
      | none =>
        dsimp only
        rw [ih m rest hn hm]

theorem hyphenJoin_nil : hyphenJoin [] = [] := rfl

theorem hyphenJoin_cons (c : Char) (rest : Str) :
    hyphenJoin (c :: rest) =
      if isWordCh c then
        match hyphenTail rest with
        | some p => c :: p.1 :: hyphenJoin p.2
        | none => c :: hyphenJoin rest
      else c :: hyphenJoin rest := by
  show hyphenJoinF (rest.length + 1) (c :: rest) = _
  simp only [hyphenJoinF, hyphenJoin]
  cases hp : hyphenTail rest with
  | some p =>
    have hlt := hyphenTail_length_lt hp
    dsimp only
    rw [hyphenJoinF_congr rest.length p.2.length p.2 (by omega) le_rfl]
  | none => rfl

theorem toLower_of_upper {c : Char} (h : 65 ≤ c.toNat ∧ c.toNat ≤ 90) :
    Char.toLower c = Char.ofNat (c.toNat + 32) := by
  unfold Char.toLower
  rw [if_pos h]

theorem toLower_of_not_upper {c : Char} (h : ¬(65 ≤ c.toNat ∧ c.toNat ≤ 90)) :
    Char.toLower c = c := by
  unfold Char.toLower
  rw [if_neg h]

theorem upper_range_facts :
    ∀ m : Nat, m < 91 → 65 ≤ m →
      isPySpace (Char.ofNat m) = false ∧ isPySpace (Char.ofNat (m + 32)) = false ∧
      Char.ofNat m ≠ ' ' ∧ Char.ofNat (m + 32) ≠ ' ' ∧
      canonChB (Char.ofNat (m + 32)) = true := by decide

theorem isPySpace_toLower (c : Char) :
    isPySpace (Char.toLower c) = isPySpace c ∧ (Char.toLower c = ' ' ↔ c = ' ') := by
  by_cases h : 65 ≤ c.toNat ∧ c.toNat ≤ 90
  · rw [toLower_of_upper h]
    have hc : Char.ofNat c.toNat = c := Char.ofNat_toNat c
    have hf := upper_range_facts c.toNat (by omega) h.1
    rw [hc] at hf
    refine ⟨hf.2.1.trans hf.1.symm, ?_⟩
    exact ⟨fun hx => absurd hx hf.2.2.2.1, fun hx => absurd hx hf.2.2.1⟩
  · rw [toLower_of_not_upper h]
    exact ⟨rfl, Iff.rfl⟩

theorem canon_of_pipeline (c0 d : Char) (hd : d ∈ nfkcChar c0)
    (hsp : isPySpace (translateChar d) = false) :
    canonChB (Char.toLower (translateChar d)) = true := by
  by_cases h0 : c0 = ' ' ∨ c0 = 'ﬁ' ∨ c0 = 'ﬂ'
  · rcases h0 with h | h | h <;> subst h <;> simp [nfkcChar] at hd
    · subst hd; simp [translateChar, isPySpace] at hsp
    · rcases hd with h | h <;> subst h <;> decide
    · rcases hd with h | h <;> subst h <;> decide
  · push_neg at h0
    have hd' : d = c0 := by
      simp [nfkcChar, h0.1, h0.2.1, h0.2.2] at hd
      exact hd
    subst hd'
    by_cases h1 : (d = '“' ∨ d = '”' ∨ d = '„' ∨ d = '‟') ∨
        (d = '’' ∨ d = '‘' ∨ d = '‚' ∨ d = '‛')
    · rcases h1 with (h | h | h | h) | (h | h | h | h) <;> subst h <;> decide
    · push_neg at h1
      have ht : translateChar d = d := by
        simp only [translateChar]
        rw [if_neg, if_neg, if_neg]
        · simp [h0.1]
        · simp [h1.2.1, h1.2.2.1, h1.2.2.2.1, h1.2.2.2.2]
        · simp [h1.1.1, h1.1.2.1, h1.1.2.2.1, h1.1.2.2.2]
      rw [ht] at hsp ⊢
      by_cases h2 : 65 ≤ d.toNat ∧ d.toNat ≤ 90
      · rw [toLower_of_upper h2]
        exact (upper_range_facts d.toNat (by omega) h2.1).2.2.2.2
      · rw [toLower_of_not_upper h2]
        have hn : nfkcChar d = [d] := by
          simp [nfkcChar, h0.1, h0.2.1, h0.2.2]
        simp [canonChB, hn, ht, toLower_of_not_upper h2, hsp]

theorem canonChB_spec {c : Char} (h : canonChB c = true) :
    nfkcChar c = [c] ∧ translateChar c = c ∧ Char.toLower c = c ∧
    (isPySpace c = true → c = ' ') := by
  simp only [canonChB, Bool.and_eq_true, beq_iff_eq, Bool.or_eq_true,
    Bool.not_eq_true'] at h
  refine ⟨h.1.1.1, h.1.1.2, h.1.2, ?_⟩
  intro hsp
  rcases h.2 with h2 | h2
  · rw [hsp] at h2; cases h2
  · exact h2

theorem nfkc_flatMap_eq_self {l : Str} (h : ∀ c ∈ l, nfkcChar c = [c]) :
    l.flatMap nfkcChar = l := by
  induction l with
  | nil => rfl
  | cons a t ih =>
    rw [List.flatMap_cons, h a (List.mem_cons_self _ _),
      ih (fun c hc => h c (List.mem_cons_of_mem _ hc))]
    rfl

theorem map_eq_self_of_fixed {f : Char → Char} {l : Str} (h : ∀ c ∈ l, f c = c) :
    l.map f = l := by
  induction l with
  | nil => rfl
  | cons a t ih =>
    rw [List.map_cons, h a (List.mem_cons_self _ _),
      ih (fun c hc => h c (List.mem_cons_of_mem _ hc))]

theorem replaceCrLf_cons (a : Char) (rest : Str) :
    replaceCrLf (a :: rest) =
      if a = '\r' ∧ rest.head? = some '\n' then '\n' :: replaceCrLf rest.tail
      else a :: replaceCrLf rest := by
  cases rest with
  | nil => by_cases ha : a = '\r' <;> simp [replaceCrLf, ha]
  | cons b t =>
    by_cases ha : a = '\r' <;> by_cases hb : b = '\n' <;>
      simp [replaceCrLf, ha, hb]

theorem replaceCrLf_subset : ∀ (l : Str), ∀ c ∈ replaceCrLf l, c ∈ l := by
  intro l
  induction l using replaceCrLf.induct with
  | case1 => simp [replaceCrLf]
  | case2 rest ih =>
    intro c hc
    replace hc : c ∈ '\n' :: replaceCrLf rest := hc
    rcases List.mem_cons.mp hc with h | h
    · subst h; simp
    · simp [List.mem_cons_of_mem _ (ih c h)]
  | case3 a rest h1 ih =>
    intro c hc
    rw [replaceCrLf_cons, if_neg] at hc
    · rcases List.mem_cons.mp hc with h | h
      · subst h; simp
      · exact List.mem_cons_of_mem _ (ih c h)
    · rintro ⟨ha, hh⟩
      cases rest with
      | nil => simp at hh
      | cons b t =>
        simp only [List.head?_cons, Option.some.injEq] at hh
        exact h1 t ha (by rw [hh])

theorem replaceCrLf_eq_self : ∀ (l : Str), '\r' ∉ l → replaceCrLf l = l := by
  intro l
  induction l using replaceCrLf.induct with
  | case1 => intro _; rfl
  | case2 rest ih =>
    intro h
    exact absurd (List.mem_cons_self _ _) h
  | case3 a rest h1 ih =>
    intro h
    rw [replaceCrLf_cons, if_neg]
    · rw [ih (fun hm => h (List.mem_cons_of_mem _ hm))]
    · rintro ⟨ha, _⟩
      exact h (ha ▸ List.mem_cons_self _ _)

theorem hyphenTail_newline {l : Str} {p : Char × Str}
    (h : hyphenTail l = some p) : '\n' ∈ l := by
  match l with
  | [] => simp [hyphenTail] at h
  | a :: t =>
    simp only [hyphenTail] at h
    split at h
    · simp at h
    · rename_i c2 r2 heq
      split at h
      · rename_i hcond
        simp only [Bool.and_eq_true] at hcond
        have hmem : '\n' ∈ t.takeWhile isPySpace := by
          have := hcond.1.2
          simpa [List.elem_iff] using this
        exact List.mem_cons_of_mem _ (List.takeWhile_subset _ hmem)
      · simp at h

theorem hyphenJoin_subset_aux :
    ∀ (n : Nat) (l : Str), l.length ≤ n → ∀ c ∈ hyphenJoin l, c ∈ l := by
  intro n
  induction n with
  | zero =>
    intro l hl c hc
    have : l = [] := List.eq_nil_of_length_eq_zero (Nat.le_zero.mp hl)
    subst this
    simp [hyphenJoin_nil] at hc
  | succ n ih =>
    intro l hl c hc
    match l with
    | [] => simp [hyphenJoin_nil] at hc
    | a :: rest =>
      simp only [List.length_cons, Nat.succ_le_succ_iff] at hl
      rw [hyphenJoin_cons] at hc
      by_cases hw : isWordCh a = true
      · rw [if_pos hw] at hc
        cases hp : hyphenTail rest with
        | some p =>
          rw [hp] at hc
          dsimp only at hc
          rcases List.mem_cons.mp hc with h | h
          · subst h; simp
          · rcases List.mem_cons.mp h with h2 | h2
            · subst h2
              exact List.mem_cons_of_mem _ (hyphenTail_mem hp).1
            · have hlen := hyphenTail_length_lt hp
              have := ih p.2 (by omega) c h2
              exact List.mem_cons_of_mem _ ((hyphenTail_mem hp).2 c this)
        | none =>
          rw [hp] at hc
          dsimp only at hc
          rcases List.mem_cons.mp hc with h | h
          · subst h; simp
          · exact List.mem_cons_of_mem _ (ih rest hl c h)
      · rw [if_neg hw] at hc
        rcases List.mem_cons.mp hc with h | h
        · subst h; simp
        · exact List.mem_cons_of_mem _ (ih rest hl c h)

theorem hyphenJoin_subset {l : Str} {c : Char} (h : c ∈ hyphenJoin l) : c ∈ l :=
  hyphenJoin_subset_aux l.length l le_rfl c h

theorem hyphenJoin_eq_self_aux :
    ∀ (n : Nat) (l : Str), l.length ≤ n → '\n' ∉ l → hyphenJoin l = l := by
  intro n
  induction n with
  | zero =>
    intro l hl _
    have : l = [] := List.eq_nil_of_length_eq_zero (Nat.le_zero.mp hl)
    subst this
    rfl
  | succ n ih =>
    intro l hl hnl
    match l with
    | [] => rfl
    | a :: rest =>
      simp only [List.length_cons, Nat.succ_le_succ_iff] at hl
      rw [hyphenJoin_cons]
      have hrest : '\n' ∉ rest := fun hm => hnl (List.mem_cons_of_mem _ hm)
      have hp : hyphenTail rest = none := by
        cases hp : hyphenTail rest with
        | some p => exact absurd (List.mem_cons_of_mem a (hyphenTail_newline hp)) hnl
        | none => rfl
      rw [hp]
      by_cases hw : isWordCh a = true
      · rw [if_pos hw]
        dsimp only
        rw [ih rest hl hrest]
      · rw [if_neg hw, ih rest hl hrest]

theorem collapseWsAux_mem :
    ∀ (l : Str) (flag : Bool), ∀ c ∈ collapseWsAux flag l,
      c = ' ' ∨ (c ∈ l ∧ isPySpace c = false) := by
  intro l
  induction l with
  | nil => intro flag c hc; simp [collapseWsAux] at hc
  | cons a rest ih =>
    intro flag c hc
    simp only [collapseWsAux] at hc
    by_cases ha : isPySpace a = true
    · rw [if_pos ha] at hc
      cases flag with
      | true =>
        simp only [if_pos] at hc
        rcases ih true c hc with h | h
        · exact Or.inl h
        · exact Or.inr ⟨List.mem_cons_of_mem _ h.1, h.2⟩
      | false =>
        simp only [Bool.false_eq_true, if_false] at hc
        rcases List.mem_cons.mp hc with h | h
        · exact Or.inl h
        · rcases ih true c h with h2 | h2
          · exact Or.inl h2
          · exact Or.inr ⟨List.mem_cons_of_mem _ h2.1, h2.2⟩
    · rw [if_neg ha] at hc
      rcases List.mem_cons.mp hc with h | h
      · subst h
        exact Or.inr ⟨List.mem_cons_self _ _, by simpa using ha⟩
      · rcases ih false c h with h2 | h2
        · exact Or.inl h2
        · exact Or.inr ⟨List.mem_cons_of_mem _ h2.1, h2.2⟩

theorem collapseWsAux_chain :
    ∀ (l : Str) (flag : Bool),
      (collapseWsAux flag l).Chain' noTwoSpaces ∧
      (flag = true → ∀ h ∈ (collapseWsAux flag l).head?, h ≠ ' ') := by
  intro l
  induction l with
  | nil => intro flag; simp [collapseWsAux]
  | cons a rest ih =>
    intro flag
    simp only [collapseWsAux]
    by_cases ha : isPySpace a = true
    · rw [if_pos ha]
      cases flag with
      | true => simpa using ih true
      | false =>
        simp only [Bool.false_eq_true, if_false]
        constructor
        · rw [List.chain'_cons']
          refine ⟨?_, (ih true).1⟩
          intro y hy
          have hne := (ih true).2 rfl y hy
          exact fun hx => hne hx.2
        · intro h; cases h
    · rw [if_neg ha]
      have hane : a ≠ ' ' := by
        intro h; subst h; simp [isPySpace] at ha
      constructor
      · rw [List.chain'_cons']
        refine ⟨?_, (ih false).1⟩
        intro y _
        exact fun hx => hane hx.1
      · intro _ h hh
        simp only [List.head?_cons, Option.mem_def, Option.some.injEq] at hh
        subst hh
        exact hane

theorem collapseWsAux_true_eq_false {l : Str}
    (h : ∀ c ∈ l.head?, isPySpace c = false) :
    collapseWsAux true l = collapseWsAux false l := by
  cases l with
  | nil => rfl
  | cons a rest =>
    have ha : isPySpace a = false := h a (by simp)
    simp only [collapseWsAux, ha, Bool.false_eq_true, if_false]

theorem collapseWs_eq_self :
    ∀ (l : Str), (∀ c ∈ l, isPySpace c = true → c = ' ') →
      l.Chain' noTwoSpaces → collapseWsAux false l = l := by
  intro l
  induction l with
  | nil => intro _ _; rfl
  | cons a rest ih =>
    intro hsp hch
    have hch' := List.chain'_cons'.mp hch
    simp only [collapseWsAux]
    by_cases ha : isPySpace a = true
    · have ha' : a = ' ' := hsp a (List.mem_cons_self _ _) ha
      have hhead : ∀ c ∈ rest.head?, isPySpace c = false := by
        intro c hc
        have hne : c ≠ ' ' := fun h => (hch'.1 c hc) ⟨ha', h⟩
        by_contra hcc
        simp only [Bool.not_eq_false] at hcc
        exact hne (hsp c (List.mem_cons_of_mem _ (List.mem_of_mem_head? hc)) hcc)
      rw [if_pos ha, collapseWsAux_true_eq_false hhead,
        ih (fun c hc h => hsp c (List.mem_cons_of_mem _ hc) h) hch'.2, ha']
      rfl
    · rw [if_neg ha, ih (fun c hc h => hsp c (List.mem_cons_of_mem _ hc) h) hch'.2]

theorem pyStrip_subset {l : Str} : pyStrip l ⊆ l := by
  intro c hc
  have h1 : c ∈ l.dropWhile isPySpace :=
    ( List.rdropWhile_prefix _ _).subset hc
  exact List.dropWhile_subset _ h1

theorem pyStrip_chain {l : Str} (h : l.Chain' noTwoSpaces) :
    (pyStrip l).Chain' noTwoSpaces :=
  List.Chain'.prefix (h.suffix (List.dropWhile_suffix _)) ( List.rdropWhile_prefix _ _)

theorem pyStrip_head {l : Str} : ∀ c ∈ (pyStrip l).head?, isPySpace c = false := by
  intro c hc
  obtain ⟨t, ht⟩ := List.rdropWhile_prefix isPySpace (l.dropWhile isPySpace)
  have hdw : (l.dropWhile isPySpace).head? = some c := by
    rw [← ht]
    cases hs : pyStrip l with
    | nil => rw [hs] at hc; simp at hc
    | cons x xs =>
      rw [hs] at hc
      simp only [List.head?_cons, Option.mem_def, Option.some.injEq] at hc
      show ((pyStrip l) ++ t).head? = some c
      rw [hs]
      simp [hc]
  have hnot := List.head?_dropWhile_not isPySpace l
  rw [hdw] at hnot
  exact hnot

theorem pyStrip_last {l : Str} : ∀ c ∈ (pyStrip l).getLast?, isPySpace c = false := by
  intro c hc
  have hne : pyStrip l ≠ [] := by
    intro h; rw [h] at hc; simp at hc
  have hlast := List.rdropWhile_last_not isPySpace (l.dropWhile isPySpace)
    (by unfold pyStrip at hne; exact hne)
  rw [List.getLast?_eq_getLast _ (by unfold pyStrip at hne; exact hne)] at hc
  simp only [Option.mem_def, Option.some.injEq] at hc
  subst hc
  simpa using hlast

theorem pyStrip_eq_self {l : Str}
    (hh : ∀ c ∈ l.head?, isPySpace c = false)
    (hl : ∀ c ∈ l.getLast?, isPySpace c = false) : pyStrip l = l := by
  have h1 : l.dropWhile isPySpace = l := by
    cases l with
    | nil => rfl
    | cons a rest =>
      rw [List.dropWhile_cons, if_neg]
      simp [hh a (by simp)]
  unfold pyStrip
  rw [h1, List.rdropWhile_eq_self_iff]
  intro hne hp
  have := hl (l.getLast hne) (by rw [List.getLast?_eq_getLast _ hne]; rfl)
  rw [this] at hp
  cases hp

theorem normForMatch_props (s : Str) :
    (∀ c ∈ normForMatch s, canonChB c = true) ∧
    (normForMatch s).Chain' noTwoSpaces ∧
    (∀ c ∈ (normForMatch s).head?, isPySpace c = false) ∧
    (∀ c ∈ (normForMatch s).getLast?, isPySpace c = false) := by
  by_cases h : s = []
  · subst h
    refine ⟨?_, ?_, ?_, ?_⟩ <;> simp [normForMatch]
  · unfold normForMatch
    rw [if_neg h]
    have hzmem : ∀ c ∈ pyStrip (collapseWs (hyphenJoin (replaceCrLf
        ((s.flatMap nfkcChar).map translateChar)))),
        c = ' ' ∨ (c ∈ hyphenJoin (replaceCrLf
          ((s.flatMap nfkcChar).map translateChar)) ∧ isPySpace c = false) := by
      intro c hc
      exact collapseWsAux_mem _ false c (pyStrip_subset hc)
    have hcanon : ∀ c ∈ pyStrip (collapseWs (hyphenJoin (replaceCrLf
        ((s.flatMap nfkcChar).map translateChar)))),
        canonChB (Char.toLower c) = true := by
      intro c hc
      rcases hzmem c hc with h1 | ⟨h1, h2⟩
      · subst h1; decide
      · have h3 : c ∈ replaceCrLf ((s.flatMap nfkcChar).map translateChar) :=
          hyphenJoin_subset h1
        have h4 : c ∈ (s.flatMap nfkcChar).map translateChar :=
          replaceCrLf_subset _ c h3
        obtain ⟨d, hd, rfl⟩ := List.mem_map.mp h4
        obtain ⟨c0, hc0, hdc⟩ := List.mem_flatMap.mp hd
        exact canon_of_pipeline c0 d hdc h2
    refine ⟨?_, ?_, ?_, ?_⟩
    · intro c hc
      obtain ⟨d, hdz, rfl⟩ := List.mem_map.mp hc
      exact hcanon d hdz
    · rw [List.chain'_map]
      have hch := pyStrip_chain (collapseWsAux_chain (hyphenJoin (replaceCrLf
        ((s.flatMap nfkcChar).map translateChar))) false).1
      exact hch.imp (fun a b hab hx =>
        hab ⟨((isPySpace_toLower a).2).mp hx.1, ((isPySpace_toLower b).2).mp hx.2⟩)
    · intro c hc
      rw [List.head?_map] at hc
      cases hzh : (pyStrip (collapseWs (hyphenJoin (replaceCrLf
          ((s.flatMap nfkcChar).map translateChar))))).head? with
      | none => rw [hzh] at hc; simp at hc
      | some d =>
        rw [hzh] at hc
        simp only [Option.map_some', Option.mem_def, Option.some.injEq] at hc
        subst hc
        rw [(isPySpace_toLower d).1]
        exact pyStrip_head d (Option.mem_def.mpr hzh)
    · intro c hc
      rw [List.getLast?_map] at hc
      cases hzh : (pyStrip (collapseWs (hyphenJoin (replaceCrLf
          ((s.flatMap nfkcChar).map translateChar))))).getLast? with
      | none => rw [hzh] at hc; simp at hc
      | some d =>
        rw [hzh] at hc
        simp only [Option.map_some', Option.mem_def, Option.some.injEq] at hc
        subst hc
        rw [(isPySpace_toLower d).1]
        exact pyStrip_last d (Option.mem_def.mpr hzh)

theorem normForMatch_idem (s : Str) :
    normForMatch (normForMatch s) = normForMatch s := by
  obtain ⟨h1, h2, h3, h4⟩ := normForMatch_props s
  set y := normForMatch s with hy
  by_cases hnil : y = []
  · rw [hnil]; rfl
  · unfold normForMatch
    rw [if_neg hnil]
    have c1 : y.flatMap nfkcChar = y :=
      nfkc_flatMap_eq_self (fun c hc => (canonChB_spec (h1 c hc)).1)
    have c2 : y.map translateChar = y :=
      map_eq_self_of_fixed (fun c hc => (canonChB_spec (h1 c hc)).2.1)
    have hr : '\r' ∉ y := fun hm =>
      absurd ((canonChB_spec (h1 _ hm)).2.2.2 (by decide)) (by decide)
    have hn : '\n' ∉ y := fun hm =>
      absurd ((canonChB_spec (h1 _ hm)).2.2.2 (by decide)) (by decide)
    have c3 : replaceCrLf y = y := replaceCrLf_eq_self _ hr
    have c4 : hyphenJoin y = y := hyphenJoin_eq_self_aux y.length _ le_rfl hn
    have c5 : collapseWs y = y :=
      collapseWs_eq_self _ (fun c hc hsp => (canonChB_spec (h1 c hc)).2.2.2 hsp) h2
    have c6 : pyStrip y = y := pyStrip_eq_self h3 h4
    rw [c1, c2, c3, c4, c5, c6]
    exact map_eq_self_of_fixed (fun c hc => (canonChB_spec (h1 c hc)).2.2.1)

/-! ### Claims C3 and C4 -/

/-- C3: `normalize` is idempotent — for every string `x`,
`normalize(normalize(x)) == normalize(x)` — and it is total on empty and
`None` input, returning the empty string.  (That it never raises is embedded
as `normForMatch` being a total Lean function.) -/
theorem c3_normalize_idempotent_total :
    (∀ s : Str, normForMatch (normForMatch s) = normForMatch s) ∧
    normOptForMatch none = [] ∧ normForMatch [] = [] :=
  ⟨normForMatch_idem, rfl, rfl⟩

/-- C4 counterexample: the code's first step is NFKC, not NFC.  On the
single-character string `"ﬁ"` (U+FB01, an NFC fixed point that NFKC expands to
`"fi"`) `_norm_for_match` returns `"fi"`, while the claim's NFC pipeline
returns `"ﬁ"` — so the claim's "canonical (not compatibility) composition" is
refuted. -/
theorem c4_nfc_counterexample :
    normForMatch ['ﬁ'] ≠ normSpecNFC ['ﬁ'] ∧
    normForMatch ['ﬁ'] = ['f', 'i'] ∧ normSpecNFC ['ﬁ'] = ['ﬁ'] := by
  decide

theorem translateChar_eq_specQuoteFold : ∀ c, translateChar c = specQuoteFold c := by
  intro c
  by_cases h1 : c = '“'
  · subst h1; decide
  by_cases h2 : c = '”'
  · subst h2; decide
  by_cases h3 : c = '„'
  · subst h3; decide
  by_cases h4 : c = '‟'
  · subst h4; decide
  by_cases h5 : c = '’'
  · subst h5; decide
  by_cases h6 : c = '‘'
  · subst h6; decide
  by_cases h7 : c = '‚'
  · subst h7; decide
  by_cases h8 : c = '‛'
  · subst h8; decide
  by_cases h9 : c = '\u00A0'
  · subst h9; decide
  simp [translateChar, specQuoteFold, h1, h2, h3, h4, h5, h6, h7, h8, h9]

/-- C4 (amended): `_norm_for_match` applies exactly the five claimed
transformations in the claimed order, except that the first step is Unicode
*compatibility* composition (NFKC), not canonical composition. -/
theorem c4_normalize_steps_nfkc (s : Str) : normForMatch s = normSpecNFKC s := by
  by_cases h : s = []
  · subst h; rfl
  · unfold normForMatch normSpecNFKC
    rw [if_neg h,
      show translateChar = specQuoteFold from funext translateChar_eq_specQuoteFold]

example :
    resolveEvidenceIdAndPage samplePack "Text p03_c01".toList
      "the team escalated promptly".toList =
    (some "Text p03_c01".toList, some 3) := by decide

example :
    resolveEvidenceIdAndPage samplePack "Text p99_c99".toList
      "the team escalated promptly".toList =
    (some "Text p03_c01".toList, some 3) := by decide

example :
    resolveEvidenceIdAndPage samplePack "Text p03_c01".toList
      "no such sentence occurs in this report".toList =
    (none, none) := by decide

theorem fastPath_sound {pack : EvidencePack} {eid q : Str} {r : Str × Int}
    (h : fastPath pack eid q = some r) :
    (∃ c ∈ pack.text_chunks,
      r = ("Text ".toList ++ c.chunk_id, c.provenance.page)) ∨
    (∃ t ∈ pack.tables,
      r = ("Table ".toList ++ t.table_id, t.provenance.page)) := by
  unfold fastPath at h
  split at h
  · exact absurd h (by simp)
  · cases hs : searchIdRef false eid with
    | none => rw [hs] at h; exact absurd h (by simp)
    | some kk =>
      rw [hs] at h
      obtain ⟨kind, key⟩ := kk
      cases kind with
      | text =>
        cases hf : pack.text_chunks.find? (fastChunkHit q key) with
        | none => simp only [hf] at h; exact absurd h (by simp)
        | some c =>
          simp only [hf] at h
          cases h
          exact Or.inl ⟨c, List.mem_of_find?_eq_some hf, rfl⟩
      | table =>
        cases hf : pack.tables.find? (fastTableHit q key) with
        | none => simp only [hf] at h; exact absurd h (by simp)
        | some t =>
          simp only [hf] at h
          cases h
          exact Or.inr ⟨t, List.mem_of_find?_eq_some hf, rfl⟩

theorem repairPath_sound (pack : EvidencePack) (q : Str) :
    repairPath pack q = (none, none) ∨
    (∃ c ∈ pack.text_chunks,
      repairPath pack q =
        (some ("Text ".toList ++ c.chunk_id), some c.provenance.page)) ∨
    (∃ t ∈ pack.tables,
      repairPath pack q =
        (some ("Table ".toList ++ t.table_id), some t.provenance.page)) := by
  by_cases hq : normForMatch q = []
  · exact Or.inl (by unfold repairPath; simp [hq])
  · cases hf : pack.text_chunks.find?
        (fun c => strContains (normForMatch c.text) (normForMatch q)) with
    | some c =>
      refine Or.inr (Or.inl ⟨c, List.mem_of_find?_eq_some hf, ?_⟩)
      unfold repairPath
      simp only [if_neg hq, hf]
    | none =>
      cases hg : pack.tables.find?
          (fun t => strContains (normForMatch (t.text_fallback.getD []))
            (normForMatch q)) with
      | some t =>
        refine Or.inr (Or.inr ⟨t, List.mem_of_find?_eq_some hg, ?_⟩)
        unfold repairPath
        simp only [if_neg hq, hf, hg]
      | none =>
        refine Or.inl ?_
        unfold repairPath
        simp only [if_neg hq, hf, hg]

/-- C10: the resolver returns either `(None, None)` or a pair of non-`None`
components in which the id is `"Text "` plus the `chunk_id` of a chunk of the
pack (or `"Table "` plus the `table_id` of a table of the pack) and the page
is that same block's provenance page. -/
theorem c10_resolver_soundness (pack : EvidencePack) (eid q : Str) :
    resolveEvidenceIdAndPage pack eid q = (none, none) ∨
    (∃ c ∈ pack.text_chunks,
      resolveEvidenceIdAndPage pack eid q =
        (some ("Text ".toList ++ c.chunk_id), some c.provenance.page)) ∨
    (∃ t ∈ pack.tables,
      resolveEvidenceIdAndPage pack eid q =
        (some ("Table ".toList ++ t.table_id), some t.provenance.page)) := by
  unfold resolveEvidenceIdAndPage
  cases hf : fastPath pack (pyStrip eid) (pyStrip q) with
  | some r =>
    rcases fastPath_sound hf with ⟨c, hc, hr⟩ | ⟨t, ht, hr⟩
    · exact Or.inr (Or.inl ⟨c, hc, by simp only [hf, hr]⟩)
    · exact Or.inr (Or.inr ⟨t, ht, by simp only [hf, hr]⟩)
  | none =>
    simp only [hf]
    exact repairPath_sound pack (pyStrip q)

theorem searchIdRef_nil (b : Bool) : searchIdRef b [] = none := rfl

/-- C1: fast-path resolution.  If the (stripped) claimed id contains the
pattern `(Text|Table) p<NN>_[ct]<NN>` naming a chunk (resp. table) of the
pack, the resolver returns that block's canonical id and page when either no
quote was supplied or the normalised quote occurs in the block's normalised
text (resp. `text_fallback`); when a quote is supplied and does not occur in
the named block, the fast path yields nothing and resolution is exactly the
repair path. -/
theorem c1_fast_path :
    (∀ (pack : EvidencePack) (eid q key : Str) (c : TextChunk),
      searchIdRef false (pyStrip eid) = some (.text, key) →
      pack.text_chunks.find? (fun c0 => c0.chunk_id == key) = some c →
      (pyStrip q = [] ∨
        strContains (normForMatch c.text) (normForMatch (pyStrip q)) = true) →
      resolveEvidenceIdAndPage pack eid q =
        (some ("Text ".toList ++ c.chunk_id), some c.provenance.page)) ∧
    (∀ (pack : EvidencePack) (eid q key : Str) (t : TableEvidence),
      searchIdRef false (pyStrip eid) = some (.table, key) →
      pack.tables.find? (fun t0 => t0.table_id == key) = some t →
      (pyStrip q = [] ∨
        strContains (normForMatch (t.text_fallback.getD []))
          (normForMatch (pyStrip q)) = true) →
      resolveEvidenceIdAndPage pack eid q =
        (some ("Table ".toList ++ t.table_id), some t.provenance.page)) ∧
    (∀ (pack : EvidencePack) (eid q key : Str),
      searchIdRef false (pyStrip eid) = some (.text, key) →
      pyStrip q ≠ [] →
      (∀ c ∈ pack.text_chunks, c.chunk_id = key →
        strContains (normForMatch c.text) (normForMatch (pyStrip q)) = false) →
      resolveEvidenceIdAndPage pack eid q = repairPath pack (pyStrip q)) ∧
    (∀ (pack : EvidencePack) (eid q key : Str),
      searchIdRef false (pyStrip eid) = some (.table, key) →
      pyStrip q ≠ [] →
      (∀ t ∈ pack.tables, t.table_id = key →
        strContains (normForMatch (t.text_fallback.getD []))
          (normForMatch (pyStrip q)) = false) →
      resolveEvidenceIdAndPage pack eid q = repairPath pack (pyStrip q)) := by
  refine ⟨?_, ?_, ?_, ?_⟩
  · intro pack eid q key c hs hfind hacc
    have hne : pyStrip eid ≠ [] := by
      intro h
      rw [h, searchIdRef_nil] at hs
      cases hs
    obtain ⟨hpc, as, bs, hsplit, hprev⟩ := List.find?_eq_some.mp hfind
    have hfind2 : pack.text_chunks.find? (fastChunkHit (pyStrip q) key) = some c := by
      rw [List.find?_eq_some]
      refine ⟨?_, as, bs, hsplit, ?_⟩
      · rcases hacc with h | h
        · simp [fastChunkHit, hpc, h]
        · simp [fastChunkHit, hpc, h]
      · intro a ha
        have h0 := hprev a ha
        simp only [Bool.not_eq_eq_eq_not, Bool.not_true] at h0
        simp [fastChunkHit, h0]
    have hfp : fastPath pack (pyStrip eid) (pyStrip q) =
        some ("Text ".toList ++ c.chunk_id, c.provenance.page) := by
      unfold fastPath
      rw [if_neg hne, hs]
      simp only [hfind2]
    unfold resolveEvidenceIdAndPage
    simp only [hfp]
  · intro pack eid q key t hs hfind hacc
    have hne : pyStrip eid ≠ [] := by
      intro h
      rw [h, searchIdRef_nil] at hs
      cases hs
    obtain ⟨hpc, as, bs, hsplit, hprev⟩ := List.find?_eq_some.mp hfind
    have hfind2 : pack.tables.find? (fastTableHit (pyStrip q) key) = some t := by
      rw [List.find?_eq_some]
      refine ⟨?_, as, bs, hsplit, ?_⟩
      · rcases hacc with h | h
        · simp [fastTableHit, hpc, h]
        · simp [fastTableHit, hpc, h]
      · intro a ha
        have h0 := hprev a ha
        simp only [Bool.not_eq_eq_eq_not, Bool.not_true] at h0
        simp [fastTableHit, h0]
    have hfp : fastPath pack (pyStrip eid) (pyStrip q) =
        some ("Table ".toList ++ t.table_id, t.provenance.page) := by
      unfold fastPath
      rw [if_neg hne, hs]
      simp only [hfind2]
    unfold resolveEvidenceIdAndPage
    simp only [hfp]
  · intro pack eid q key hs hq hfail
    have hne : pyStrip eid ≠ [] := by
      intro h
      rw [h, searchIdRef_nil] at hs
      cases hs
    have hfind0 : pack.text_chunks.find? (fastChunkHit (pyStrip q) key) = none := by
      rw [List.find?_eq_none]
      intro c hc
      simp only [fastChunkHit, Bool.and_eq_true, Bool.or_eq_true, beq_iff_eq,
        not_and]
      intro hid
      rw [hfail c hc hid]
      simp [hq]
    have hfp : fastPath pack (pyStrip eid) (pyStrip q) = none := by
      unfold fastPath
      rw [if_neg hne, hs]
      simp only [hfind0]
    unfold resolveEvidenceIdAndPage
    simp only [hfp]
  · intro pack eid q key hs hq hfail
    have hne : pyStrip eid ≠ [] := by
      intro h
      rw [h, searchIdRef_nil] at hs
      cases hs
    have hfind0 : pack.tables.find? (fastTableHit (pyStrip q) key) = none := by
      rw [List.find?_eq_none]
      intro t ht
      simp only [fastTableHit, Bool.and_eq_true, Bool.or_eq_true, beq_iff_eq,
        not_and]
      intro hid
      rw [hfail t ht hid]
      simp [hq]
    have hfp : fastPath pack (pyStrip eid) (pyStrip q) = none := by
      unfold fastPath
      rw [if_neg hne, hs]
      simp only [hfind0]
    unfold resolveEvidenceIdAndPage
    simp only [hfp]

/-- Witness for C1 at the spec's concrete example: the pack contains chunk
`p03_c01` (page 3) whose text contains the quote, and resolution by id
succeeds. -/
theorem c1_fast_path_witness :
    resolveEvidenceIdAndPage samplePack "Text p03_c01".toList
      "the team escalated promptly".toList =
    (some "Text p03_c01".toList, some 3) := by
  have h := c1_fast_path.1 samplePack "Text p03_c01".toList
      "the team escalated promptly".toList "p03_c01".toList
      { chunk_id := "p03_c01".toList
        text := "During the incident the team escalated promptly and informed the board.".toList
        provenance := { page := 3 } }
      (by decide) (by decide) (by decide)
  exact h

/-- C2: repair-path resolution.  Whenever the fast path does not accept,
resolution is the repair path on the stripped quote; the repair path fails on
an empty normalised quote, otherwise returns the first text chunk in document
order whose normalised text contains the normalised quote, then (only if no
chunk matches) the first table by `text_fallback`, and `(None, None)` when
nothing matches — normalised-substring containment being the sole criterion,
first match winning. -/
theorem c2_repair_path :
    (∀ (pack : EvidencePack) (eid q : Str),
      fastPath pack (pyStrip eid) (pyStrip q) = none →
      resolveEvidenceIdAndPage pack eid q = repairPath pack (pyStrip q)) ∧
    (∀ (pack : EvidencePack) (q : Str),
      normForMatch q = [] → repairPath pack q = (none, none)) ∧
    (∀ (pack : EvidencePack) (q : Str) (l1 l2 : List TextChunk) (c : TextChunk),
      normForMatch q ≠ [] →
      pack.text_chunks = l1 ++ c :: l2 →
      (∀ c0 ∈ l1, strContains (normForMatch c0.text) (normForMatch q) = false) →
      strContains (normForMatch c.text) (normForMatch q) = true →
      repairPath pack q =
        (some ("Text ".toList ++ c.chunk_id), some c.provenance.page)) ∧
    (∀ (pack : EvidencePack) (q : Str) (l1 l2 : List TableEvidence)
        (t : TableEvidence),
      normForMatch q ≠ [] →
      (∀ c ∈ pack.text_chunks,
        strContains (normForMatch c.text) (normForMatch q) = false) →
      pack.tables = l1 ++ t :: l2 →
      (∀ t0 ∈ l1,
        strContains (normForMatch (t0.text_fallback.getD []))
          (normForMatch q) = false) →
      strContains (normForMatch (t.text_fallback.getD []))
        (normForMatch q) = true →
      repairPath pack q =
        (some ("Table ".toList ++ t.table_id), some t.provenance.page)) ∧
    (∀ (pack : EvidencePack) (q : Str),
      (∀ c ∈ pack.text_chunks,
        strContains (normForMatch c.text) (normForMatch q) = false) →
      (∀ t ∈ pack.tables,
        strContains (normForMatch (t.text_fallback.getD []))
          (normForMatch q) = false) →
      repairPath pack q = (none, none)) := by
  refine ⟨?_, ?_, ?_, ?_, ?_⟩
  · intro pack eid q hf
    unfold resolveEvidenceIdAndPage
    simp only [hf]
  · intro pack q h
    unfold repairPath
    simp [h]
  · intro pack q l1 l2 c hq hsplit hfail hhit
    have hfind : pack.text_chunks.find?
        (fun c0 => strContains (normForMatch c0.text) (normForMatch q)) = some c := by
      rw [List.find?_eq_some]
      exact ⟨hhit, l1, l2, hsplit, fun a ha => by simp [hfail a ha]⟩
    unfold repairPath
    simp only [if_neg hq, hfind]
  · intro pack q l1 l2 t hq hchunks hsplit hfail hhit
    have hnone : pack.text_chunks.find?
        (fun c => strContains (normForMatch c.text) (normForMatch q)) = none := by
      rw [List.find?_eq_none]
      intro c hc
      simp [hchunks c hc]
    have hfind : pack.tables.find?
        (fun t0 => strContains (normForMatch (t0.text_fallback.getD []))
          (normForMatch q)) = some t := by
      rw [List.find?_eq_some]
      exact ⟨hhit, l1, l2, hsplit, fun a ha => by simp [hfail a ha]⟩
    unfold repairPath
    simp only [if_neg hq, hnone, hfind]
  · intro pack q hchunks htables
    by_cases hq : normForMatch q = []
    · unfold repairPath
      simp [hq]
    · have hnone : pack.text_chunks.find?
          (fun c => strContains (normForMatch c.text) (normForMatch q)) = none := by
        rw [List.find?_eq_none]
        intro c hc
        simp [hchunks c hc]
      have hnone2 : pack.tables.find?
          (fun t => strContains (normForMatch (t.text_fallback.getD []))
            (normForMatch q)) = none := by
        rw [List.find?_eq_none]
        intro t ht
        simp [htables t ht]
      unfold repairPath
      simp only [if_neg hq, hnone, hnone2]

/-- Witness for C2 at the spec's concrete example: the claimed id `p99_c99`
does not exist, and the same quote is still resolved by content to chunk
`p03_c01` on page 3. -/
theorem c2_repair_path_witness :
    resolveEvidenceIdAndPage samplePack "Text p99_c99".toList
      "the team escalated promptly".toList =
    (some "Text p03_c01".toList, some 3) := by
  have h1 := c2_repair_path.1 samplePack "Text p99_c99".toList
      "the team escalated promptly".toList (by decide)
  have h2 := c2_repair_path.2.2.1 samplePack
      (pyStrip "the team escalated promptly".toList)
      [{ chunk_id := "p01_c01".toList
         text := "The pump failed on the night shift.".toList
         provenance := { page := 1 } }]
      []
      { chunk_id := "p03_c01".toList
        text := "During the incident the team escalated promptly and informed the board.".toList
        provenance := { page := 3 } }
      (by decide) (by decide) (by decide) (by decide)
  exact h1.trans h2

theorem wordSplitTail_length_lt {l : Str} {p : Str × Str}
    (h : wordSplitTail l = some p) : p.2.length < l.length := by
  simp only [wordSplitTail] at h
  split at h
  · cases h
  · split at h
    · cases h
    · split at h
      · cases h
      · have hlet : 3 ≤ (l.takeWhile Char.isAlpha).length := by omega
        have hws : (l.dropWhile Char.isAlpha).takeWhile isPySpace ≠ [] := by
          simpa using (by assumption : ¬((l.dropWhile Char.isAlpha).takeWhile isPySpace).isEmpty = true)
        have hlen1 : (l.takeWhile Char.isAlpha).length +
            (l.dropWhile Char.isAlpha).length = l.length := by
          rw [← List.length_append, List.takeWhile_append_dropWhile]
        have hlen2 : ((l.dropWhile Char.isAlpha).takeWhile isPySpace).length +
            ((l.dropWhile Char.isAlpha).dropWhile isPySpace).length =
            (l.dropWhile Char.isAlpha).length := by
          rw [← List.length_append, List.takeWhile_append_dropWhile]
        have hlen3 : ((l.dropWhile Char.isAlpha).dropWhile isPySpace).length =
            (((l.dropWhile Char.isAlpha).dropWhile isPySpace).takeWhile Char.isLower).length +
            (((l.dropWhile Char.isAlpha).dropWhile isPySpace).dropWhile Char.isLower).length := by
          rw [← List.length_append, List.takeWhile_append_dropWhile]
        have hwspos : 0 < ((l.dropWhile Char.isAlpha).takeWhile isPySpace).length :=
          List.length_pos.mpr hws
        split at h
        · rename_i hnil
          cases h
          dsimp only
          rw [hnil] at hlen3
          simp only [List.length_nil] at hlen3 ⊢
          omega
        · rename_i c2 r3 heq
          split at h
          · cases h
          · cases h
            dsimp only
            rw [heq] at hlen3
            simp only [List.length_cons] at hlen3 ⊢
            omega

example :
    fixTableGrid
      [ some [some "Action".toList, some "".toList, some "".toList],
        some [some "Owner".toList, some "Implemente".toList, some "".toList],
        some [some "".toList, some "d".toList, some "Date".toList],
        some [some "Replace valve".toList, some "J Smith".toList, some "Done".toList],
        some [some "Review seals".toList, some "A Jones".toList, some "Complete".toList] ] =
    (["Action Owner".toList, "Implemented".toList, "Date".toList],
     [["Replace valve".toList, "J Smith".toList, "Done".toList],
      ["Review seals".toList, "A Jones".toList, "Complete".toList]]) := by
  decide

theorem headerScan_eq_takeWhile :
    ∀ rows, headerScan rows = rows.takeWhile looksLikeHeaderFragmentRow := by
  intro rows
  induction rows with
  | nil => rfl
  | cons r rest ih =>
    simp only [headerScan, List.takeWhile_cons]
    by_cases h : looksLikeHeaderFragmentRow r = true
    · rw [if_pos h, if_pos h, ih]
    · rw [if_neg h, if_neg h]

/-- C5 counterexample: on the claim's grid (its three header-fragment rows
followed by two concrete data rows), the cleaner's header is
`["Action Owner", "Implemented", "Date"]` — the two distinct column-0
fragments `"Action"` and `"Owner"` are concatenated by the column-wise merge
— not the claimed `["Action", "Implemented", "Date"]`. -/
theorem c5_header_example_refuted :
    (fixTableGrid exampleGrid).1 ≠
      ["Action".toList, "Implemented".toList, "Date".toList] ∧
    fixTableGrid exampleGrid =
      (["Action Owner".toList, "Implemented".toList, "Date".toList],
       [["Replace valve".toList, "J Smith".toList, "Done".toList],
        ["Review seals".toList, "A Jones".toList, "Complete".toList]]) := by
  constructor
  · decide
  · decide

/-- C5 (amended): a row is a header fragment iff it has a non-empty cell,
more than 25% blank cells, average non-empty cell length under 28, and no
digit; only the first 10 post-drop rows are scanned and the header block is
the maximal run of fragment rows from the top; if the first cleaned row is
not a fragment it becomes the header (fallback); and on the example grid the
result is exactly the header `["Action Owner", "Implemented", "Date"]`
(column fragments concatenated, the word split `"Implemente"+"d"` repaired)
with exactly 2 body rows of 3 cells each. -/
theorem c5_header_inference :
    (∀ row : List Str,
      looksLikeHeaderFragmentRow row = true ↔
        (row.filter (fun c => !c.isEmpty) ≠ [] ∧
         row.length < 4 * row.countP (fun c => c.isEmpty) ∧
         ((row.filter (fun c => !c.isEmpty)).map List.length).sum <
           28 * (row.filter (fun c => !c.isEmpty)).length ∧
         ∀ c ∈ row, ∀ ch ∈ c, ¬ch.isDigit)) ∧
    (∀ rows : List (List Str),
      headerScan (rows.take 10) =
        (rows.takeWhile looksLikeHeaderFragmentRow).take 10) ∧
    (∀ (grid : List (Option (List (Option Str)))) (r0 : List Str)
        (rtail : List (List Str)),
      dropNearEmptyRows 85
        (rectangularise ((grid.filterMap id).map (List.map normCell))) =
        r0 :: rtail →
      looksLikeHeaderFragmentRow r0 = false →
      (fixTableGrid grid).1 = r0) ∧
    fixTableGrid exampleGrid =
      (["Action Owner".toList, "Implemented".toList, "Date".toList],
       [["Replace valve".toList, "J Smith".toList, "Done".toList],
        ["Review seals".toList, "A Jones".toList, "Complete".toList]]) := by
  refine ⟨?_, ?_, ?_, by decide⟩
  · intro row
    have hdigit :
        ((row.filter (fun c => !c.isEmpty)).any
          (fun c => c.any Char.isDigit) = false) ↔
        (∀ c ∈ row, ∀ ch ∈ c, ¬ch.isDigit = true) := by
      constructor
      · intro hall c hc ch hch hd
        have hcne : c.isEmpty = false := by
          cases c with
          | nil => cases hch
          | cons a t => rfl
        have h1 : ¬c.any Char.isDigit = true :=
          List.any_eq_false.mp hall c (List.mem_filter.mpr ⟨hc, by simp [hcne]⟩)
        exact h1 (List.any_eq_true.mpr ⟨ch, hch, hd⟩)
      · intro h
        rw [List.any_eq_false]
        intro c hcf hany
        obtain ⟨ch, hch, hd⟩ := List.any_eq_true.mp hany
        exact h c (List.mem_filter.mp hcf).1 ch hch hd
    simp only [looksLikeHeaderFragmentRow]
    by_cases hne : (row.filter (fun c => !c.isEmpty)).isEmpty = true
    · rw [if_pos hne]
      simp only [Bool.false_eq_true, false_iff]
      intro hcon
      exact hcon.1 (List.isEmpty_iff.mp hne)
    · rw [if_neg hne]
      simp only [Bool.and_eq_true, decide_eq_true_eq, Bool.not_eq_true']
      rw [hdigit]
      constructor
      · rintro ⟨⟨h1, h2⟩, h3⟩
        exact ⟨fun h => hne (by rw [h]; rfl), h1, h2, h3⟩
      · rintro ⟨_, h1, h2, h3⟩
        exact ⟨⟨h1, h2⟩, h3⟩
  · intro rows
    rw [headerScan_eq_takeWhile, List.take_takeWhile]
  · intro grid r0 rtail hclean hfrag
    have hscan : headerScan ((r0 :: rtail).take 10) = [] := by
      rw [headerScan_eq_takeWhile, ← List.take_takeWhile]
      simp [List.takeWhile_cons, hfrag]
    simp only [fixTableGrid, hclean, hscan]
    simp

theorem rdropWhile_append_of_ne_nil {p : Char → Bool} {u v : Str}
    (h : v.rdropWhile p ≠ []) : (u ++ v).rdropWhile p = u ++ v.rdropWhile p := by
  unfold List.rdropWhile
  rw [List.reverse_append, List.dropWhile_append]
  have hne : ¬(v.reverse.dropWhile p).isEmpty = true := by
    intro hh
    apply h
    unfold List.rdropWhile
    rw [List.isEmpty_iff.mp hh]
    rfl
  rw [if_neg hne, List.reverse_append, List.reverse_reverse]

theorem rdropWhile_append_of_all {p : Char → Bool} {u v : Str}
    (h : ∀ c ∈ v, p c = true) : (u ++ v).rdropWhile p = u.rdropWhile p := by
  unfold List.rdropWhile
  rw [List.reverse_append, List.dropWhile_append, if_pos]
  rw [List.isEmpty_iff, List.dropWhile_eq_nil_iff]
  intro x hx
  exact h x (List.mem_reverse.mp hx)

theorem infix_dropWhile_of_head {p : Char → Bool} {x l : Str}
    (hx : ∀ h ∈ x.head?, p h = false) (hin : x <:+: l) :
    x <:+: l.dropWhile p := by
  induction l with
  | nil =>
    have : x = [] := List.eq_nil_of_infix_nil hin
    subst this
    simp
  | cons c t ih =>
    rw [List.dropWhile_cons]
    split
    · rename_i hc
      rcases List.infix_cons_iff.mp hin with hpre | hinf
      · cases x with
        | nil => simp
        | cons x0 xs =>
          have h1 := (List.cons_prefix_cons.mp hpre).1
          have hx0 := hx x0 (by simp)
          rw [h1, hc] at hx0
          cases hx0
      · exact ih hinf
    · exact hin

theorem infix_rdropWhile_of_last {p : Char → Bool} {x l : Str}
    (hx : ∀ h ∈ x.getLast?, p h = false) (hin : x <:+: l) :
    x <:+: l.rdropWhile p := by
  have h1 : x.reverse <:+: l.reverse := List.reverse_infix.mpr hin
  have h2 : ∀ h ∈ x.reverse.head?, p h = false := by
    intro h hh
    rw [List.head?_reverse] at hh
    exact hx h hh
  have h3 := infix_dropWhile_of_head h2 h1
  have h4 := List.reverse_infix.mpr h3
  simpa [List.rdropWhile] using h4

theorem pyStrip_infix_self (l : Str) : pyStrip l <:+: l :=
  (( List.rdropWhile_prefix _ _).isInfix).trans ((List.dropWhile_suffix _).isInfix)

theorem stripped_infix_pyStrip {x l : Str}
    (h1 : ∀ h ∈ x.head?, isPySpace h = false)
    (h2 : ∀ h ∈ x.getLast?, isPySpace h = false)
    (hin : x <:+: l) : x <:+: pyStrip l :=
  infix_rdropWhile_of_last h2 (infix_dropWhile_of_head h1 hin)

theorem pyStrip_prefix_append (l r : Str) :
    pyStrip l <+: pyStrip (l ++ ' ' :: r) := by
  by_cases hl : l.dropWhile isPySpace = []
  · have h0 : pyStrip l = [] := by
      unfold pyStrip
      rw [hl]
      rfl
    rw [h0]
    exact List.nil_prefix
  · have hd : (l ++ ' ' :: r).dropWhile isPySpace =
        l.dropWhile isPySpace ++ ' ' :: r := by
      rw [List.dropWhile_append, if_neg (by simpa [List.isEmpty_iff] using hl)]
    show (l.dropWhile isPySpace).rdropWhile isPySpace <+: _
    unfold pyStrip
    rw [hd]
    by_cases hr : (' ' :: r).rdropWhile isPySpace = []
    · have hall : ∀ c ∈ (' ' :: r), isPySpace c = true :=
        fun c hc => List.rdropWhile_eq_nil_iff.mp hr c hc
      rw [rdropWhile_append_of_all hall]
    · rw [rdropWhile_append_of_ne_nil hr]
      exact ( List.rdropWhile_prefix _ _).trans (List.prefix_append _ _)

theorem pyStrip_suffix_append (l r : Str) :
    pyStrip r <:+ pyStrip (l ++ ' ' :: r) := by
  by_cases hl : l.dropWhile isPySpace = []
  · have hd : (l ++ ' ' :: r).dropWhile isPySpace = r.dropWhile isPySpace := by
      rw [List.dropWhile_append, if_pos (by simpa [List.isEmpty_iff] using hl),
        List.dropWhile_cons, if_pos (by decide)]
    unfold pyStrip
    rw [hd]
  · have hd : (l ++ ' ' :: r).dropWhile isPySpace =
        l.dropWhile isPySpace ++ ' ' :: r := by
      rw [List.dropWhile_append, if_neg (by simpa [List.isEmpty_iff] using hl)]
    unfold pyStrip
    rw [hd]
    by_cases hr : r.rdropWhile isPySpace = []
    · have hdr : r.dropWhile isPySpace = [] := by
        rw [List.dropWhile_eq_nil_iff]
        intro x hx
        exact List.rdropWhile_eq_nil_iff.mp hr x hx
      rw [hdr]
      exact List.nil_suffix
    · have h1 : (' ' :: r).rdropWhile isPySpace = ' ' :: r.rdropWhile isPySpace := by
        have := rdropWhile_append_of_ne_nil (p := isPySpace) (u := [' ']) (v := r) hr
        simpa using this
      have h2 : (' ' :: r).rdropWhile isPySpace ≠ [] := by
        rw [h1]
        simp
      rw [rdropWhile_append_of_ne_nil h2, h1]
      by_cases h3 : (r.dropWhile isPySpace).rdropWhile isPySpace = []
      · rw [h3]
        exact List.nil_suffix
      · have h4 : r.rdropWhile isPySpace =
            r.takeWhile isPySpace ++ (r.dropWhile isPySpace).rdropWhile isPySpace := by
        
          conv_lhs => rw [← List.takeWhile_append_dropWhile (p := isPySpace) (l := r)]
          exact rdropWhile_append_of_ne_nil h3
        have s1 : (r.dropWhile isPySpace).rdropWhile isPySpace <:+
            r.rdropWhile isPySpace := by
          rw [h4]
          exact List.suffix_append _ _
        exact s1.trans ((List.suffix_cons _ _).trans (List.suffix_append _ _))

/-- A cell of the merged row keeps everything (up to outer whitespace) that
the previous row's cell contained. -/
theorem mergeCell_keeps_prev {pc rc x : Str}
    (h1 : ∀ h ∈ x.head?, isPySpace h = false)
    (h2 : ∀ h ∈ x.getLast?, isPySpace h = false)
    (hin : x <:+: pc) :
    x <:+: (if rc.isEmpty then pc
            else if pc.isEmpty then rc
            else pyStrip (pc ++ ' ' :: rc)) := by
  by_cases hrc : rc.isEmpty = true
  · rw [if_pos hrc]
    exact hin
  · rw [if_neg hrc]
    by_cases hpc : pc.isEmpty = true
    · rw [if_pos hpc]
      rw [List.isEmpty_iff.mp hpc] at hin
      have : x = [] := List.eq_nil_of_infix_nil hin
      subst this
      simp
    · rw [if_neg hpc]
      have hx1 : x <:+: pyStrip pc := stripped_infix_pyStrip h1 h2 hin
      exact hx1.trans (pyStrip_prefix_append pc rc).isInfix

/-- A cell of the merged row contains the continuation cell's stripped
content. -/
theorem mergeCell_keeps_cont (pc rc : Str) :
    pyStrip rc <:+: (if rc.isEmpty then pc
                     else if pc.isEmpty then rc
                     else pyStrip (pc ++ ' ' :: rc)) := by
  by_cases hrc : rc.isEmpty = true
  · rw [if_pos hrc, List.isEmpty_iff.mp hrc]
    simp [pyStrip]
  · rw [if_neg hrc]
    by_cases hpc : pc.isEmpty = true
    · rw [if_pos hpc]
      exact pyStrip_infix_self rc
    · rw [if_neg hpc]
      exact (pyStrip_suffix_append pc rc).isInfix

theorem mergeContRow_length {prev r : List Str} (hlen : prev.length = r.length) :
    (mergeContRow prev r).length = prev.length := by
  simp [mergeContRow, hlen]

theorem mergeContRow_cells {prev r : List Str} (hlen : prev.length = r.length) :
    (∀ pc ∈ prev, ∀ x : Str,
      (∀ h ∈ x.head?, isPySpace h = false) →
      (∀ h ∈ x.getLast?, isPySpace h = false) →
      x <:+: pc → ∃ c' ∈ mergeContRow prev r, x <:+: c') ∧
    (∀ rc ∈ r, ∃ c' ∈ mergeContRow prev r, pyStrip rc <:+: c') := by
  induction prev generalizing r with
  | nil =>
    constructor
    · intro pc hpc
      cases hpc
    · intro rc hrc
      have : r = [] := by
        cases r with
        | nil => rfl
        | cons a t => simp at hlen
      subst this
      cases hrc
  | cons pc pt ih =>
    cases r with
    | nil => simp at hlen
    | cons rc rt =>
      have hlen' : pt.length = rt.length := by simpa using hlen
      obtain ⟨iha, ihb⟩ := ih hlen'
      constructor
      · intro pc0 hpc0 x hx1 hx2 hin
        rcases List.mem_cons.mp hpc0 with h | h
        · subst h
          refine ⟨_, List.mem_cons_self _ _, ?_⟩
          exact mergeCell_keeps_prev hx1 hx2 hin
        · obtain ⟨c', hc', hxc⟩ := iha pc0 h x hx1 hx2 hin
          exact ⟨c', List.mem_cons_of_mem _ hc', hxc⟩
      · intro rc0 hrc0
        rcases List.mem_cons.mp hrc0 with h | h
        · subst h
          refine ⟨_, List.mem_cons_self _ _, ?_⟩
          exact mergeCell_keeps_cont pc rc0
        · obtain ⟨c', hc', hxc⟩ := ihb rc0 h
          exact ⟨c', List.mem_cons_of_mem _ hc', hxc⟩

theorem mergeContAux_content (maxF w : Nat) :
    ∀ (body acc : List (List Str)),
      (∀ r ∈ body, r.length = w) →
      (∀ r ∈ acc, r.length = w) →
      (∀ r ∈ body, ∀ c ∈ r, ∃ r' ∈ mergeContAux maxF acc body, ∃ c' ∈ r',
        pyStrip c <:+: c') ∧
      (∀ r ∈ acc, ∀ c' ∈ r, ∀ x : Str,
        (∀ h ∈ x.head?, isPySpace h = false) →
        (∀ h ∈ x.getLast?, isPySpace h = false) →
        x <:+: c' → ∃ r' ∈ mergeContAux maxF acc body, ∃ c'' ∈ r', x <:+: c'') := by
  intro body
  induction body with
  | nil =>
    intro acc hb hacc
    constructor
    · intro r hr
      cases hr
    · intro r hr c' hc' x hx1 hx2 hin
      exact ⟨r, by simpa [mergeContAux] using List.mem_reverse.mpr hr, c', hc', hin⟩
  | cons r rest ih =>
    intro acc hb hacc
    have hrw : r.length = w := hb r (List.mem_cons_self _ _)
    have hbrest : ∀ r0 ∈ rest, r0.length = w :=
      fun r0 h0 => hb r0 (List.mem_cons_of_mem _ h0)
    cases acc with
    | nil =>
      have hstep : mergeContAux maxF [] (r :: rest) = mergeContAux maxF [r] rest := rfl
      obtain ⟨ih1, ih2⟩ := ih [r] hbrest
        (by
          intro r0 h0
          rcases List.mem_cons.mp h0 with h | h
          · subst h; exact hrw
          · cases h)
      constructor
      · intro r0 hr0 c hc
        rw [hstep]
        rcases List.mem_cons.mp hr0 with h | h
        · subst h
          exact ih2 r0 (List.mem_cons_self _ _) c hc (pyStrip c)
            pyStrip_head pyStrip_last (pyStrip_infix_self c)
        · exact ih1 r0 h c hc
      · intro r0 hr0
        cases hr0
    | cons prev accTail =>
      have hprevw : prev.length = w := hacc prev (List.mem_cons_self _ _)
      by_cases hsp : r.countP (fun c => !c.isEmpty) ≤ maxF
      · have hstep : mergeContAux maxF (prev :: accTail) (r :: rest) =
            mergeContAux maxF (mergeContRow prev r :: accTail) rest := by
          simp only [mergeContAux, if_pos hsp]
        have hlen : prev.length = r.length := by rw [hprevw, hrw]
        have hmw : (mergeContRow prev r).length = w := by
          rw [mergeContRow_length hlen, hprevw]
        obtain ⟨ih1, ih2⟩ := ih (mergeContRow prev r :: accTail) hbrest
          (by
            intro r0 h0
            rcases List.mem_cons.mp h0 with h | h
            · subst h; exact hmw
            · exact hacc r0 (List.mem_cons_of_mem _ h))
        constructor
        · intro r0 hr0 c hc
          rw [hstep]
          rcases List.mem_cons.mp hr0 with h | h
          · subst h
            obtain ⟨c', hc', hxc⟩ := (mergeContRow_cells hlen).2 c hc
            exact ih2 (mergeContRow prev r0) (List.mem_cons_self _ _) c' hc'
              (pyStrip c) pyStrip_head pyStrip_last hxc
          · exact ih1 r0 h c hc
        · intro r0 hr0 c' hc' x hx1 hx2 hin
          rw [hstep]
          rcases List.mem_cons.mp hr0 with h | h
          · subst h
            obtain ⟨c'', hc'', hxc⟩ := (mergeContRow_cells hlen).1 c' hc' x hx1 hx2 hin
            exact ih2 _ (List.mem_cons_self _ _) c'' hc'' x hx1 hx2 hxc
          · exact ih2 r0 (List.mem_cons_of_mem _ h) c' hc' x hx1 hx2 hin
      · have hstep : mergeContAux maxF (prev :: accTail) (r :: rest) =
            mergeContAux maxF (r :: prev :: accTail) rest := by
          simp only [mergeContAux, if_neg hsp]
        obtain ⟨ih1, ih2⟩ := ih (r :: prev :: accTail) hbrest
          (by
            intro r0 h0
            rcases List.mem_cons.mp h0 with h | h
            · subst h; exact hrw
            · exact hacc r0 h)
        constructor
        · intro r0 hr0 c hc
          rw [hstep]
          rcases List.mem_cons.mp hr0 with h | h
          · subst h
            exact ih2 r0 (List.mem_cons_self _ _) c hc (pyStrip c)
              pyStrip_head pyStrip_last (pyStrip_infix_self c)
          · exact ih1 r0 h c hc
        · intro r0 hr0 c' hc' x hx1 hx2 hin
          rw [hstep]
          exact ih2 r0 (List.mem_cons_of_mem _ hr0) c' hc' x hx1 hx2 hin

theorem mergeContAux_length (maxF : Nat) :
    ∀ (body acc : List (List Str)),
      (mergeContAux maxF acc body).length ≤ acc.length + body.length := by
  intro body
  induction body with
  | nil =>
    intro acc
    simp [mergeContAux]
  | cons r rest ih =>
    intro acc
    cases acc with
    | nil =>
      have hstep : mergeContAux maxF [] (r :: rest) = mergeContAux maxF [r] rest := rfl
      rw [hstep]
      have h := ih [r]
      simp only [List.length_cons, List.length_nil] at h ⊢
      omega
    | cons prev accTail =>
      by_cases hsp : r.countP (fun c => !c.isEmpty) ≤ maxF
      · have hstep : mergeContAux maxF (prev :: accTail) (r :: rest) =
            mergeContAux maxF (mergeContRow prev r :: accTail) rest := by
          simp only [mergeContAux, if_pos hsp]
        rw [hstep]
        have h := ih (mergeContRow prev r :: accTail)
        simp only [List.length_cons] at h ⊢
        omega
      · have hstep : mergeContAux maxF (prev :: accTail) (r :: rest) =
            mergeContAux maxF (r :: prev :: accTail) rest := by
          simp only [mergeContAux, if_neg hsp]
        rw [hstep]
        have h := ih (r :: prev :: accTail)
        simp only [List.length_cons] at h ⊢
        omega

/-- C6: continuation-row stitching.  A body row with at most `contFillMax`
non-empty cells that has a preceding output row is merged into that row
(its non-empty cells appended space-joined into the corresponding columns,
which is what `mergeContRow` does); the output never has more rows than the
input; and, for equal-width bodies, the stripped content of every input cell
occurs (as a contiguous substring) in some output cell. -/
theorem c6_continuation_rows :
    (∀ (maxF : Nat) (r1 r2 : List Str) (rest : List (List Str)),
      r2.countP (fun c => !c.isEmpty) ≤ maxF →
      mergeContinuationRows maxF (r1 :: r2 :: rest) =
        mergeContinuationRows maxF (mergeContRow r1 r2 :: rest)) ∧
    (∀ (maxF : Nat) (body : List (List Str)),
      (mergeContinuationRows maxF body).length ≤ body.length) ∧
    (∀ (w : Nat) (body : List (List Str)),
      (∀ r ∈ body, r.length = w) →
      ∀ r ∈ body, ∀ c ∈ r, ∃ r' ∈ mergeContinuationRows 2 body, ∃ c' ∈ r',
        pyStrip c <:+: c') := by
  refine ⟨?_, ?_, ?_⟩
  · intro maxF r1 r2 rest h
    show mergeContAux maxF [r1] (r2 :: rest) =
      mergeContAux maxF [mergeContRow r1 r2] rest
    simp only [mergeContAux, if_pos h]
  · intro maxF body
    have h := mergeContAux_length maxF body []
    simpa using h
  · intro w body hb r hr c hc
    exact (mergeContAux_content 2 w body [] hb (by intro r0 h0; cases h0)).1 r hr c hc

/-- Witness for C6: a 4-column body whose second row has 3 of 4 cells empty
is merged into the first row (one output row), and the row count shrinks. -/
theorem c6_continuation_rows_witness :
    mergeContinuationRows 2
      [["Fix pump".toList, "Owner".toList, "High".toList, "Open".toList],
       [[], "continued".toList, [], []]] =
      [["Fix pump".toList, "Owner continued".toList, "High".toList,
        "Open".toList]] ∧
    (mergeContinuationRows 2
      [["Fix pump".toList, "Owner".toList, "High".toList, "Open".toList],
       [[], "continued".toList, [], []]]).length ≤ 2 := by
  constructor
  · have h := c6_continuation_rows.1 2
      ["Fix pump".toList, "Owner".toList, "High".toList, "Open".toList]
      [[], "continued".toList, [], []] [] (by decide)
    rw [h]
    decide
  · exact c6_continuation_rows.2.1 2 _

theorem padTo_length (n : Nat) (r : List Str) : (padTo n r).length = n := by
  simp only [padTo, List.length_take, List.length_append, List.length_replicate]
  omega

theorem maxRowLen_ge {rows : List (List Str)} {r : List Str} (h : r ∈ rows) :
    r.length ≤ maxRowLen rows := by
  induction rows with
  | nil => cases h
  | cons a t ih =>
    rcases List.mem_cons.mp h with h1 | h1
    · subst h1
      exact Nat.le_max_left _ _
    · exact Nat.le_trans (ih h1) (Nat.le_max_right _ _)

theorem mem_dropNearEmptyRows {pct : Nat} {rows : List (List Str)}
    {r : List Str} (h : r ∈ dropNearEmptyRows pct rows) : r ∈ rows ∧ r ≠ [] := by
  have h1 := List.mem_filter.mp h
  refine ⟨h1.1, ?_⟩
  have := h1.2
  simp only [Bool.and_eq_true, Bool.not_eq_true'] at this
  intro hnil
  rw [hnil] at this
  simp at this

theorem foldl_zip_length (n : Nat) :
    ∀ (rs : List (List Str)) (init : List Str), init.length = n →
      (rs.foldl (fun merged r => List.zipWith mergeCellCol merged (padTo n r))
        init).length = n := by
  intro rs
  induction rs with
  | nil =>
    intro init h
    simpa using h
  | cons r rest ih =>
    intro init h
    simp only [List.foldl_cons]
    exact ih _ (by simp [List.length_zipWith, padTo_length, h])

theorem mergeRowsColumnwise_length {rows : List (List Str)} (h : rows ≠ []) :
    (mergeRowsColumnwise rows).length = maxRowLen rows := by
  simp only [mergeRowsColumnwise,
    if_neg (by simpa [List.isEmpty_iff] using h : ¬rows.isEmpty = true)]
  simp only [List.length_map]
  exact foldl_zip_length _ rows _ (by simp)

theorem headerScan_subset {rows : List (List Str)} :
    ∀ r ∈ headerScan rows, r ∈ rows := by
  intro r hr
  rw [headerScan_eq_takeWhile] at hr
  exact List.takeWhile_subset _ hr

/-- C9: the edge-case policy.  A grid with fewer than 2 rows is skipped
entirely (no table emitted, state untouched); an all-null-cells grid degrades
to the empty table; and every grid degrades to either the empty table or a
table with a nonempty header (the first-row-as-header fallback of
`c5_header_inference` shows which row that is) — the functions are total, so
no input raises. -/
theorem c9_edge_cases :
    (∀ (st : StitchState) (pageNo : Nat) (rt : RawTable),
      rt.grid.length < 2 → processTable st pageNo rt = (st, none)) ∧
    (∀ grid : List (Option (List (Option Str))),
      (∀ orow ∈ grid, ∀ c ∈ orow.getD [], c = none) →
      fixTableGrid grid = ([], [])) ∧
    (∀ grid : List (Option (List (Option Str))),
      fixTableGrid grid = ([], []) ∨ (fixTableGrid grid).1 ≠ []) := by
  refine ⟨?_, ?_, ?_⟩
  · intro st pageNo rt h
    unfold processTable
    rw [if_pos h]
  · intro grid hnull
    have hcells : ∀ r ∈ (grid.filterMap id).map (List.map normCell),
        ∀ c ∈ r, c = ([] : Str) := by
      intro r hr c hc
      obtain ⟨row, hrow, rfl⟩ := List.mem_map.mp hr
      obtain ⟨orow, ho, hoeq⟩ := List.mem_filterMap.mp hrow
      obtain ⟨c0, hc0, rfl⟩ := List.mem_map.mp hc
      have hrow' : orow.getD [] = row := by
        simp only [id] at hoeq
        rw [hoeq]
        rfl
      rw [hnull orow ho c0 (by rw [hrow']; exact hc0)]
      rfl
    have hdrop : dropNearEmptyRows 85
        (rectangularise ((grid.filterMap id).map (List.map normCell))) = [] := by
      unfold dropNearEmptyRows
      rw [List.filter_eq_nil_iff]
      intro r hr
      obtain ⟨r0, hr0, rfl⟩ := List.mem_map.mp hr
      simp only [Bool.and_eq_true, Bool.not_eq_true']
      rintro ⟨hne, hth⟩
      have hall : ∀ c ∈ padTo (maxRowLen ((grid.filterMap id).map
          (List.map normCell))) r0, c = ([] : Str) := by
        intro c hc
        have := (List.take_subset _ _) hc
        rcases List.mem_append.mp this with h1 | h1
        · exact hcells r0 hr0 c h1
        · exact List.eq_of_mem_replicate h1
      have hcount : (padTo (maxRowLen ((grid.filterMap id).map
          (List.map normCell))) r0).countP (fun c => c.isEmpty) =
          (padTo (maxRowLen ((grid.filterMap id).map (List.map normCell))) r0).length := by
        rw [List.countP_eq_length]
        intro c hc
        rw [hall c hc]
        rfl
      rw [decide_eq_false_iff_not] at hth
      apply hth
      rw [hcount]
      omega
    simp only [fixTableGrid, hdrop]
  · intro grid
    simp only [fixTableGrid]
    cases hd : dropNearEmptyRows 85
        (rectangularise ((grid.filterMap id).map (List.map normCell))) with
    | nil =>
      simp only [hd]
      exact Or.inl trivial
    | cons r0 rtail =>
      right
      simp only [hd]
      by_cases hs : (headerScan ((r0 :: rtail).take 10)).isEmpty = true
      · simp only [hs, if_pos]
        have : r0 ∈ dropNearEmptyRows 85
            (rectangularise ((grid.filterMap id).map (List.map normCell))) := by
          rw [hd]
          exact List.mem_cons_self _ _
        simpa using (mem_dropNearEmptyRows this).2
      · simp only [hs, Bool.false_eq_true, if_false]
        obtain ⟨h0, hhr⟩ : ∃ h0, h0 ∈ headerScan ((r0 :: rtail).take 10) := by
          cases hh : headerScan ((r0 :: rtail).take 10) with
          | nil => rw [hh] at hs; simp at hs
          | cons a t => exact ⟨a, List.mem_cons_self _ _⟩
        have h0mem : h0 ∈ r0 :: rtail :=
          List.take_subset _ _ (headerScan_subset h0 hhr)
        have h0ne : h0 ≠ [] := by
          have : h0 ∈ dropNearEmptyRows 85
              (rectangularise ((grid.filterMap id).map (List.map normCell))) := by
            rw [hd]; exact h0mem
          exact (mem_dropNearEmptyRows this).2
        have hscanne : headerScan ((r0 :: rtail).take 10) ≠ [] := by
          intro hh
          rw [hh] at hhr
          cases hhr
        have hlen := mergeRowsColumnwise_length hscanne
        intro hcon
        rw [hcon] at hlen
        have hge := maxRowLen_ge hhr
        have : 1 ≤ h0.length := by
          cases h0 with
          | nil => exact absurd rfl h0ne
          | cons a t => simp
        simp only [List.length_nil] at hlen
        omega

/-- Witness for C9: a one-row grid is skipped with the state unchanged, and a
two-row all-null grid degrades to the empty table. -/
theorem c9_edge_cases_witness :
    processTable ⟨[], []⟩ 1
      { grid := [some [some "x".toList]], bbox := none } = (⟨[], []⟩, none) ∧
    fixTableGrid [some [none, none], some [none]] = ([], []) := by
  constructor
  · exact c9_edge_cases.1 ⟨[], []⟩ 1 _ (by decide)
  · exact c9_edge_cases.2.1 _ (by decide)

theorem tableSignature_nCols (n : Nat) (bbox : Option (List ℚ)) :
    (tableSignature n bbox).nCols = n := by
  unfold tableSignature
  split <;> rfl

theorem applyCase1_empty (ph : Option (List Str)) (rs : List (List Str)) :
    applyCase1 ph [] rs = ([], rs) := by
  simp [applyCase1]

theorem applyCase2_empty (ph : Option (List Str)) (rs : List (List Str)) :
    applyCase2 ph [] rs = ([], rs) := by
  simp [applyCase2]

theorem sigLookup_inv {m : List (TableSig × List Str)} {k : TableSig}
    {v : List Str}
    (hinv : ∀ p ∈ m, p.2 ≠ [] ∧ p.2.length = p.1.nCols)
    (h : sigLookup m k = some v) : v ≠ [] ∧ v.length = k.nCols := by
  unfold sigLookup at h
  cases hf : m.find? (fun p => decide (p.1 = k)) with
  | none => rw [hf] at h; cases h
  | some p =>
    rw [hf] at h
    simp only [Option.map_some', Option.some.injEq] at h
    subst h
    have hm := List.mem_of_find?_eq_some hf
    have hk0 := List.find?_some hf
    simp only [decide_eq_true_eq] at hk0
    have := hinv p hm
    rw [hk0] at this
    exact this

theorem mem_sigInsert {m : List (TableSig × List Str)} {k : TableSig}
    {v : List Str} {p : TableSig × List Str} (h : p ∈ sigInsert m k v) :
    p = (k, v) ∨ p ∈ m := by
  induction m with
  | nil =>
    simp only [sigInsert] at h
    rcases List.mem_cons.mp h with h1 | h1
    · exact Or.inl h1
    · cases h1
  | cons q rest ih =>
    obtain ⟨k0, v0⟩ := q
    simp only [sigInsert] at h
    split at h
    · rcases List.mem_cons.mp h with h1 | h1
      · exact Or.inl h1
      · exact Or.inr (List.mem_cons_of_mem _ h1)
    · rcases List.mem_cons.mp h with h1 | h1
      · exact Or.inr (h1 ▸ List.mem_cons_self _ _)
      · rcases ih h1 with h2 | h2
        · exact Or.inl h2
        · exact Or.inr (List.mem_cons_of_mem _ h2)

theorem applyCase1_width {ph : Option (List Str)} {hd : List Str}
    {rs : List (List Str)} {n : Nat}
    (hph : ∀ v, ph = some v → v ≠ [] ∧ v.length = n)
    (hhdne : hd ≠ []) (hhd : hd.length = n)
    (hrs : ∀ r ∈ rs, r.length = n) :
    ((applyCase1 ph hd rs).1 ≠ [] ∧ (applyCase1 ph hd rs).1.length = n) ∧
    (∀ r ∈ (applyCase1 ph hd rs).2, r.length = n) := by
  unfold applyCase1
  split
  · rename_i hcond
    simp only [Bool.and_eq_true] at hcond
    cases hp : ph with
    | none =>
      rw [hp] at hcond
      simp [prevTruthyFn] at hcond
    | some v =>
      have hv := hph v hp
      refine ⟨⟨hv.1, hv.2⟩, ?_⟩
      intro r hr
      rcases List.mem_cons.mp hr with h1 | h1
      · rw [h1, hhd]
      · exact hrs r h1
  · exact ⟨⟨hhdne, hhd⟩, hrs⟩

theorem applyCase2_width {ph : Option (List Str)} {hd : List Str}
    {rs : List (List Str)} {n : Nat}
    (hph : ∀ v, ph = some v → v ≠ [] ∧ v.length = n)
    (hhdne : hd ≠ []) (hhd : hd.length = n)
    (hrs : ∀ r ∈ rs, r.length = n) :
    ((applyCase2 ph hd rs).1 ≠ [] ∧ (applyCase2 ph hd rs).1.length = n) ∧
    (∀ r ∈ (applyCase2 ph hd rs).2, r.length = n) := by
  unfold applyCase2
  split
  · rename_i hcond
    simp only [Bool.and_eq_true] at hcond
    cases hp : ph with
    | none =>
      rw [hp] at hcond
      simp [prevTruthyFn] at hcond
    | some v =>
      have hv := hph v hp
      refine ⟨⟨hv.1, hv.2⟩, ?_⟩
      intro r hr
      cases rs with
      | nil => cases hr
      | cons r0 rtail =>
        dsimp only at hr
        split at hr
        · exact hrs r (List.mem_cons_of_mem _ hr)
        · exact hrs r hr
  · exact ⟨⟨hhdne, hhd⟩, hrs⟩

theorem applyRowStitch_subset (ph plr : Option (List Str))
    (rs : List (List Str)) :
    ∀ r ∈ (applyRowStitch ph plr rs).2, r ∈ rs := by
  unfold applyRowStitch
  intro r hr
  split at hr
  · split at hr
    · exact List.mem_cons_of_mem _ hr
    · exact hr
  · exact hr

theorem mergeContAux_width (maxF w : Nat) :
    ∀ (body acc : List (List Str)),
      (∀ r ∈ body, r.length = w) →
      (∀ r ∈ acc, r.length = w) →
      ∀ r ∈ mergeContAux maxF acc body, r.length = w := by
  intro body
  induction body with
  | nil =>
    intro acc _ hacc r hr
    simp only [mergeContAux, List.mem_reverse] at hr
    exact hacc r hr
  | cons r0 rest ih =>
    intro acc hb hacc r hr
    have hr0w : r0.length = w := hb r0 (List.mem_cons_self _ _)
    have hbrest : ∀ r1 ∈ rest, r1.length = w :=
      fun r1 h1 => hb r1 (List.mem_cons_of_mem _ h1)
    cases acc with
    | nil =>
      have hstep : mergeContAux maxF [] (r0 :: rest) =
          mergeContAux maxF [r0] rest := rfl
      rw [hstep] at hr
      refine ih [r0] hbrest ?_ r hr
      intro r1 h1
      rcases List.mem_cons.mp h1 with h2 | h2
      · rw [h2, hr0w]
      · cases h2
    | cons prev accTail =>
      have hprevw : prev.length = w := hacc prev (List.mem_cons_self _ _)
      by_cases hsp : r0.countP (fun c => !c.isEmpty) ≤ maxF
      · have hstep : mergeContAux maxF (prev :: accTail) (r0 :: rest) =
            mergeContAux maxF (mergeContRow prev r0 :: accTail) rest := by
          simp only [mergeContAux, if_pos hsp]
        rw [hstep] at hr
        refine ih _ hbrest ?_ r hr
        intro r1 h1
        rcases List.mem_cons.mp h1 with h2 | h2
        · rw [h2, mergeContRow_length (by rw [hprevw, hr0w]), hprevw]
        · exact hacc r1 (List.mem_cons_of_mem _ h2)
      · have hstep : mergeContAux maxF (prev :: accTail) (r0 :: rest) =
            mergeContAux maxF (r0 :: prev :: accTail) rest := by
          simp only [mergeContAux, if_neg hsp]
        rw [hstep] at hr
        refine ih _ hbrest ?_ r hr
        intro r1 h1
        rcases List.mem_cons.mp h1 with h2 | h2
        · rw [h2, hr0w]
        · exact hacc r1 h2

theorem fixTableGrid_rect (grid : List (Option (List (Option Str)))) :
    (fixTableGrid grid).1 ≠ [] →
    ∀ r ∈ (fixTableGrid grid).2, r.length = (fixTableGrid grid).1.length := by
  simp only [fixTableGrid]
  cases hd : dropNearEmptyRows 85
      (rectangularise ((grid.filterMap id).map (List.map normCell))) with
  | nil =>
    simp only [hd]
    intro h
    exact absurd rfl h
  | cons r0 rtail =>
    simp only [hd]
    by_cases hs : (headerScan ((r0 :: rtail).take 10)).isEmpty = true
    · simp only [if_pos hs]
      intro hne r hr
      have hr0ne : r0.isEmpty = false := by
        cases h0 : r0 with
        | nil => rw [h0] at hne; exact absurd rfl hne
        | cons a t => rfl
      simp only [hr0ne, Bool.false_eq_true, if_false] at hr
      have h1 := (mem_dropNearEmptyRows hr).1
      exact mergeContAux_width 2 r0.length _ []
        (by
          intro r1 h2
          obtain ⟨rr, _, rfl⟩ := List.mem_map.mp h2
          exact padTo_length _ _)
        (by intro r1 h2; cases h2) r h1
    · simp only [if_neg hs]
      intro hne r hr
      have hmne : (mergeRowsColumnwise (headerScan ((r0 :: rtail).take 10))).isEmpty
          = false := by
        cases h0 : mergeRowsColumnwise (headerScan ((r0 :: rtail).take 10)) with
        | nil => rw [h0] at hne; exact absurd rfl hne
        | cons a t => rfl
      simp only [hmne, Bool.false_eq_true, if_false] at hr
      have h1 := (mem_dropNearEmptyRows hr).1
      exact mergeContAux_width 2 _ _ []
        (by
          intro r1 h2
          obtain ⟨rr, _, rfl⟩ := List.mem_map.mp h2
          exact padTo_length _ _)
        (by intro r1 h2; cases h2) r h1

theorem processTableCore_inv {st : StitchState} {pageNo : Nat}
    {header0 : List Str} {rows0 : List (List Str)} {bbox : Option (List ℚ)}
    (hinv : ∀ p ∈ st.lastHeaderBySig, p.2 ≠ [] ∧ p.2.length = p.1.nCols)
    (hrect : header0 ≠ [] → ∀ r ∈ rows0, r.length = header0.length) :
    (∀ p ∈ (processTableCore st pageNo header0 rows0 bbox).1.lastHeaderBySig,
      p.2 ≠ [] ∧ p.2.length = p.1.nCols) ∧
    (∀ t, (processTableCore st pageNo header0 rows0 bbox).2 = some t →
      t.header ≠ [] → ∀ r ∈ t.rows, r.length = t.header.length) := by
  by_cases hh0 : header0 = []
  · subst hh0
    simp only [processTableCore, applyCase1_empty, applyCase2_empty,
      List.isEmpty_nil, Bool.not_true, Bool.false_eq_true, if_false]
    constructor
    · split
      all_goals exact hinv
    · split
      · intro t ht
        cases ht
      · intro t ht hne r hr
        cases ht
        exact absurd rfl hne
  · have hn : stitchCols header0 rows0 = header0.length := by
      unfold stitchCols
      rw [if_pos]
      cases h0 : header0 with
      | nil => exact absurd h0 hh0
      | cons a t => rfl
    have hph : ∀ v,
        sigLookup st.lastHeaderBySig
          (tableSignature (stitchCols header0 rows0) bbox) = some v →
        v ≠ [] ∧ v.length = header0.length := by
      intro v hv
      have h1 := sigLookup_inv hinv hv
      rwa [tableSignature_nCols, hn] at h1
    have hw1 := applyCase1_width hph hh0 rfl (hrect hh0)
    have hw2 := applyCase2_width hph hw1.1.1 hw1.1.2 hw1.2
    constructor
    · simp only [processTableCore]
      split
      all_goals
        dsimp only
        split
        · intro p hp
          rcases mem_sigInsert hp with h1 | h1
          · rw [h1]
            refine ⟨hw2.1.1, ?_⟩
            dsimp only
            rw [tableSignature_nCols]
            exact hw2.1.2.trans hn.symm
          · exact hinv p h1
        · exact hinv
    · simp only [processTableCore]
      split
      · intro t ht
        cases ht
      · intro t ht hne r hr
        cases ht
        dsimp only at hr ⊢
        have hsub := applyRowStitch_subset _ _ _ r hr
        rw [hw2.2 r hsub]
        exact hw2.1.2.symm

theorem processTable_inv {st : StitchState} {pageNo : Nat} {rt : RawTable}
    (hinv : ∀ p ∈ st.lastHeaderBySig, p.2 ≠ [] ∧ p.2.length = p.1.nCols) :
    (∀ p ∈ (processTable st pageNo rt).1.lastHeaderBySig,
      p.2 ≠ [] ∧ p.2.length = p.1.nCols) ∧
    (∀ t, (processTable st pageNo rt).2 = some t →
      t.header ≠ [] → ∀ r ∈ t.rows, r.length = t.header.length) := by
  unfold processTable
  split
  · exact ⟨hinv, by intro t ht; cases ht⟩
  · exact processTableCore_inv hinv (fixTableGrid_rect rt.grid)

theorem processTables_inv {pageNo : Nat} :
    ∀ (rts : List RawTable) (st : StitchState),
      (∀ p ∈ st.lastHeaderBySig, p.2 ≠ [] ∧ p.2.length = p.1.nCols) →
      (∀ p ∈ (processTables st pageNo rts).1.lastHeaderBySig,
        p.2 ≠ [] ∧ p.2.length = p.1.nCols) ∧
      (∀ t ∈ (processTables st pageNo rts).2,
        t.header ≠ [] → ∀ r ∈ t.rows, r.length = t.header.length) := by
  intro rts
  induction rts with
  | nil =>
    intro st hinv
    exact ⟨hinv, by intro t ht; cases ht⟩
  | cons rt rest ih =>
    intro st hinv
    have h1 := @processTable_inv st pageNo rt hinv
    have h2 := ih (processTable st pageNo rt).1 h1.1
    simp only [processTables]
    refine ⟨h2.1, ?_⟩
    intro t ht
    cases he : (processTable st pageNo rt).2 with
    | none =>
      rw [he] at ht
      exact h2.2 t ht
    | some t0 =>
      rw [he] at ht
      rcases List.mem_cons.mp ht with h3 | h3
      · subst h3
        exact h1.2 t he
      · exact h2.2 t h3

theorem extractTablesAux_rect :
    ∀ (pages : List (Nat × List RawTable)) (st : StitchState),
      (∀ p ∈ st.lastHeaderBySig, p.2 ≠ [] ∧ p.2.length = p.1.nCols) →
      ∀ t ∈ extractTablesAux st pages,
        t.header ≠ [] → ∀ r ∈ t.rows, r.length = t.header.length := by
  intro pages
  induction pages with
  | nil =>
    intro st _ t ht
    cases ht
  | cons pg rest ih =>
    intro st hinv t ht
    simp only [extractTablesAux] at ht
    have h1 := @processTables_inv pg.1 pg.2 st hinv
    rcases List.mem_append.mp ht with h2 | h2
    · exact h1.2 t h2
    · exact ih _ h1.1 t h2

/-- C7: rectangularity.  After grid cleaning, every body row has exactly
`len(header)` cells whenever the header is non-empty, and the same invariant
holds for every table emitted by the whole extraction loop (through all
cross-page continuation handling). -/
theorem c7_rectangularity :
    (∀ grid : List (Option (List (Option Str))),
      (fixTableGrid grid).1 ≠ [] →
      ∀ r ∈ (fixTableGrid grid).2, r.length = (fixTableGrid grid).1.length) ∧
    (∀ pages : List (Nat × List RawTable),
      ∀ t ∈ extractTablesFromPdf pages,
        t.header ≠ [] → ∀ r ∈ t.rows, r.length = t.header.length) := by
  refine ⟨fixTableGrid_rect, ?_⟩
  intro pages t ht
  exact extractTablesAux_rect pages ⟨[], []⟩ (by intro p hp; cases hp) t ht

/-- Witness for C7 at the example grid: a concrete body row has exactly as
many cells as the cleaned header. -/
theorem c7_rectangularity_witness :
    ["Replace valve".toList, "J Smith".toList, "Done".toList].length =
      (fixTableGrid exampleGrid).1.length :=
  c7_rectangularity.1 exampleGrid (by decide) _ (by decide)

theorem processTableCore_emit {st : StitchState} {pageNo : Nat}
    {header0 : List Str} {rows0 : List (List Str)} {bbox : Option (List ℚ)}
    {t : EmittedTable}
    (ht : (processTableCore st pageNo header0 rows0 bbox).2 = some t) :
    t.page = pageNo ∧
    t.header =
      (applyCase2
        (sigLookup st.lastHeaderBySig (tableSignature (stitchCols header0 rows0) bbox))
        (applyCase1
          (sigLookup st.lastHeaderBySig (tableSignature (stitchCols header0 rows0) bbox))
          header0 rows0).1
        (applyCase1
          (sigLookup st.lastHeaderBySig (tableSignature (stitchCols header0 rows0) bbox))
          header0 rows0).2).1 ∧
    ∀ r ∈ t.rows, r ∈
      (applyCase2
        (sigLookup st.lastHeaderBySig (tableSignature (stitchCols header0 rows0) bbox))
        (applyCase1
          (sigLookup st.lastHeaderBySig (tableSignature (stitchCols header0 rows0) bbox))
          header0 rows0).1
        (applyCase1
          (sigLookup st.lastHeaderBySig (tableSignature (stitchCols header0 rows0) bbox))
          header0 rows0).2).2 := by
  simp only [processTableCore] at ht
  split at ht
  · cases ht
  · dsimp only at ht
    cases ht
    refine ⟨rfl, rfl, ?_⟩
    intro r hr
    exact applyRowStitch_subset _ _ _ r hr

/-- C8: cross-page stitching.  (a) Signatures with different column counts are
never equal; (b) when no header is remembered under the current table''s
signature, the table passes through unchanged — tables are only ever merged
with state stored under an equal signature; (c) when a header is remembered
under the same signature and the new header is Jaccard-similar to it
(threshold 0.65), the emitted table reuses the remembered header as its single
header, and a first body row repeating that header is dropped rather than kept
as a body row. -/
theorem c8_cross_page_stitching :
    (∀ (n1 n2 : Nat) (b1 b2 : Option (List ℚ)), n1 ≠ n2 →
      tableSignature n1 b1 ≠ tableSignature n2 b2) ∧
    (∀ (st : StitchState) (pageNo : Nat) (header0 : List Str)
        (rows0 : List (List Str)) (bbox : Option (List ℚ)),
      sigLookup st.lastHeaderBySig
          (tableSignature (stitchCols header0 rows0) bbox) = none →
      (processTableCore st pageNo header0 rows0 bbox).2 =
        if header0.isEmpty && rows0.isEmpty then none
        else some ⟨pageNo, header0, rows0⟩) ∧
    (∀ (st : StitchState) (pageNo : Nat) (header0 : List Str)
        (rows0 : List (List Str)) (bbox : Option (List ℚ)) (pv : List Str),
      sigLookup st.lastHeaderBySig
          (tableSignature (stitchCols header0 rows0) bbox) = some pv →
      pv ≠ [] → header0 ≠ [] → looksLikeParagraphRow header0 = false →
      headersSimilar header0 pv = true →
      (∀ t, (processTableCore st pageNo header0 rows0 bbox).2 = some t →
        t.header = pv) ∧
      (∀ r0 rtail, rows0 = r0 :: rtail → headersSimilar r0 pv = true →
        ∀ t, (processTableCore st pageNo header0 rows0 bbox).2 = some t →
          ∀ r ∈ t.rows, r ∈ rtail)) := by
  have hc1none : ∀ hd rs, applyCase1 none hd rs = (hd, rs) := by
    intro hd rs
    unfold applyCase1
    rw [if_neg]
    simp [prevTruthyFn]
  have hc2none : ∀ hd rs, applyCase2 none hd rs = (hd, rs) := by
    intro hd rs
    unfold applyCase2
    rw [if_neg]
    simp [prevTruthyFn]
  have hrsnone : ∀ plr rs, applyRowStitch none plr rs = (none, rs) := by
    intro plr rs
    cases rs with
    | nil => cases plr <;> rfl
    | cons a tl =>
      cases plr with
      | none => rfl
      | some lr => simp [applyRowStitch, prevTruthyFn]
  refine ⟨?_, ?_, ?_⟩
  · intro n1 n2 b1 b2 hne h
    apply hne
    have h1 := congrArg TableSig.nCols h
    rwa [tableSignature_nCols, tableSignature_nCols] at h1
  · intro st pageNo header0 rows0 bbox hph
    simp only [processTableCore, hph, hc1none, hc2none, hrsnone]
    split <;> rfl
  · intro st pageNo header0 rows0 bbox pv hph hpvne hhne hpar hsim
    have hpt : prevTruthyFn (some pv) = true := by
      simp [prevTruthyFn, List.isEmpty_iff, hpvne]
    have hc1 : applyCase1 (some pv) header0 rows0 = (header0, rows0) := by
      unfold applyCase1
      rw [if_neg]
      simp [hpar]
    have hcond : (prevTruthyFn (some pv) && !header0.isEmpty &&
        headersSimilar header0 ((some pv).getD [])) = true := by
      simp [prevTruthyFn, List.isEmpty_iff, hpvne, hhne, hsim]
    have hc2h : (applyCase2 (some pv) header0 rows0).1 = pv := by
      unfold applyCase2
      rw [if_pos hcond]
      simp only [Option.getD_some]
    refine ⟨?_, ?_⟩
    · intro t ht
      have h1 := (processTableCore_emit ht).2.1
      rw [hph] at h1
      rw [hc1] at h1
      dsimp only at h1
      rw [hc2h] at h1
      exact h1
    · intro r0 rtail hrows hsim0 t ht r hr
      subst hrows
      have hc2r : (applyCase2 (some pv) header0 (r0 :: rtail)).2 = rtail := by
        unfold applyCase2
        rw [if_pos hcond]
        dsimp only
        simp only [Option.getD_some]
        rw [if_pos hsim0]
      have h2 := (processTableCore_emit ht).2.2 r hr
      rw [hph] at h2
      rw [hc1] at h2
      dsimp only at h2
      rw [hc2r] at h2
      exact h2

/-- Witness for C8 part (c) at a concrete two-page-style instance: with the
header remembered under the same signature and a repeated similar header, the
emitted header is the remembered one. -/
theorem c8_cross_page_stitching_witness :
    EmittedTable.header ⟨7, [['a'], ['b']], [[['u'], ['v']]]⟩ = [['a'], ['b']] :=
  (c8_cross_page_stitching.2.2 ⟨[(⟨2, none⟩, [['a'], ['b']])], []⟩ 7
      [['a'], ['b']] [[['a'], ['b']], [['u'], ['v']]] none [['a'], ['b']]
      (by decide) (by decide) (by decide) (by decide) (by decide)).1
    ⟨7, [['a'], ['b']], [[['u'], ['v']]]⟩ (by decide)

example : normForMatch "Trans-\nfer".toList = "transfer".toList := by decide

example : normForMatch "ﬁsh".toList = "fish".toList := by decide

/-- Witness for C5''s header-inference clause at a concrete grid: the first
row contains a digit, so it is not a header fragment and becomes the header
itself. -/
theorem c5_header_inference_witness :
    (fixTableGrid [some [some ['a', '1'], some ['b']],
                   some [some ['c'], some ['d']]]).1 = [['a', '1'], ['b']] :=
  c5_header_inference.2.2.1
    [some [some ['a', '1'], some ['b']], some [some ['c'], some ['d']]]
    [['a', '1'], ['b']] [[['c'], ['d']]] (by decide) (by decide)
